import Mathlib

/-!
# Verification of the RescueMaze BSP map generator

Shallow embedding of `src/world_gen/GenerateMap.py`.  The Python grid
`array` (a 200-row by 250-column list of lists holding the characters
`" "`, `"w"`, `"b"`) is modelled as a function `Grid = Nat → Nat → Cell`
accessed as `g y x`, mirroring `array[y][x]`; an assignment
`array[y][x] = c` becomes `setCell g y x c`.  Python's
`random.randint(a, b)` (inclusive on both ends) is modelled by drawing
the next element of an infinite-by-default stream of naturals and
reducing it modulo the size of the interval, so that every drawn value
lies in `[a, b]` whenever `a ≤ b`, exactly the guarantee `randint`
provides.
-/

/-- The three cell states of the grid: `" "`, `"w"`, `"b"`. -/
inductive Cell where
  | empty : Cell
  | wall : Cell
  | base : Cell
deriving DecidableEq, Repr

/-- A grid coordinate, written `(x, y)` like the two-element Python
lists `[x, y]` used throughout `GenerateMap.py`. -/
abbrev Pos := Nat × Nat

/-- The world array: `g y x` mirrors `array[y][x]`. -/
abbrev Grid := Nat → Nat → Cell

/-- `array[y][x] = c`. -/
def setCell (g : Grid) (y x : Nat) (c : Cell) : Grid :=
  fun y' x' => if y' = y ∧ x' = x then c else g y' x'

/-- `createEmptyWorld` (GenerateMap.py lines 107-130): a 250 by 200
array of empty cells with a wall ring around the outside.  The nested
loops write `"w"` exactly at `i == 0 or i == 199 or j == 0 or j == 249`
and `" "` elsewhere; the function below returns the same cell for every
in-range coordinate. -/
def createEmptyWorld : Grid :=
  fun i j => if i = 0 ∨ i = 199 ∨ j = 0 ∨ j = 249 then Cell.wall else Cell.empty

/-- The stream of random draws: each call to `random.randint` consumes
one element (an empty list keeps yielding 0). -/
abbrev RNG := List Nat

/-- `random.randint(lo, hi)`: inclusive bounds.  The drawn raw value is
reduced modulo `hi + 1 - lo`, so the result lies in `[lo, hi]` for every
stream whenever `lo ≤ hi`. -/
def randint (lo hi : Nat) (rng : RNG) : Nat × RNG :=
  (lo + rng.headD 0 % (hi + 1 - lo), rng.tail)

/-- `array[wall[i][1]][wall[i][0]] = " "` — clearing one wall cell. -/
def clearAt (g : Grid) (p : Pos) : Grid :=
  setCell g p.2 p.1 Cell.empty

/-- The long-wall loop of `openDoor` (GenerateMap.py lines 246-252):
`for i in range(0, 15): if i + r < len(wall): array[…] = " "`. -/
def openDoorLong (wall : List Pos) (g : Grid) (r : Nat) : Grid :=
  (List.range 15).foldl (fun a i =>
    if i + r < wall.length then clearAt a (wall.getD (i + r) (0, 0)) else a) g

/-- The short-wall loop of `openDoor` (GenerateMap.py lines 254-258):
`for i in range(1, len(wall) - 1): array[…] = " "`, i.e. indices
`1 … len(wall) - 2`. -/
def openDoorShort (wall : List Pos) (g : Grid) : Grid :=
  (List.range' 1 (wall.length - 2)).foldl (fun a i => clearAt a (wall.getD i (0, 0))) g

/-- `openDoor(wall, array)` (GenerateMap.py lines 241-261).  If the wall
is longer than 16 cells, draw `r = randint(1, len(wall) - 16)` and clear
the 15 cells at indices `r, r+1, …, r+14`; otherwise clear every
interior cell. -/
def openDoor (wall : List Pos) (g : Grid) (rng : RNG) : Grid × RNG :=
  if 16 < wall.length then
    (openDoorLong wall g (randint 1 (wall.length - 16) rng).1,
      (randint 1 (wall.length - 16) rng).2)
  else
    (openDoorShort wall g, rng)

/-- The wall-partition loop of `addDoorToWall` (GenerateMap.py lines
267-288): scan the wall, accumulating the current part; a coordinate in
`unusable` closes the current part (if non-empty); a leftover part is
flushed at the end. -/
def partsAux (unusable : List Pos) : List Pos → List Pos → List (List Pos)
  | [], cur => if cur = [] then [] else [cur]
  | p :: rest, cur =>
    if p ∈ unusable then
      if cur = [] then partsAux unusable rest []
      else cur :: partsAux unusable rest []
    else partsAux unusable rest (cur ++ [p])

/-- The list of maximal usable wall parts of a wall. -/
def wallPartsOf (wall unusable : List Pos) : List (List Pos) :=
  partsAux unusable wall []

/-- The selection loop of `addDoorToWall` for the no-large-part case
(GenerateMap.py lines 317-325): one step of the fold over part indices,
on a state `(longest, selected)`.  Faithful to the source, including the
slip on line 324: the update is `longest = len(wallParts)` — the number
of parts — rather than `len(wallParts[i])`. -/
def selectStep (parts : List (List Pos)) (st : Int × Int) (i : Nat) : Int × Int :=
  if ((parts.getD i []).length : Int) > st.1 then ((parts.length : Int), (i : Int))
  else st

/-- The whole selection loop, folding `selectStep` over the part indices
from the initial `longest = -1`, `selected = -1`. -/
def selectLoop (parts : List (List Pos)) : Int × Int :=
  (List.range parts.length).foldl (selectStep parts) (-1, -1)

/-- The 33%-chance loop of `addDoorToWall` (GenerateMap.py lines
309-313): for every index `i` of `largeParts` draw `randint(0, 2)` and,
when the draw is 0 and `i` is not the initially chosen part, open a door
in part `i`. -/
def doorChanceLoop (largeParts : List (List Pos)) (w1 : Nat) (g : Grid) (rng : RNG) :
    Grid × RNG :=
  (List.range largeParts.length).foldl
    (fun (st : Grid × RNG) i =>
      let c := randint 0 2 st.2
      if c.1 = 0 ∧ i ≠ w1 then openDoor (largeParts.getD i []) st.1 c.2
      else (st.1, c.2))
    (g, rng)

/-- `addDoorToWall(wall, unusable, array)` (GenerateMap.py lines
264-333): build the wall parts, collect those of length ≥ 15; if some
exist, open a door in a randomly chosen one and run the 33%-chance loop
over the rest; otherwise run the (buggy) longest-part selection and, if
a part was selected, open a door there. -/
def addDoorToWall (wall unusable : List Pos) (g : Grid) (rng : RNG) : Grid × RNG :=
  let parts := wallPartsOf wall unusable
  let largeParts := parts.filter (fun p => 15 ≤ p.length)
  if 0 < largeParts.length then
    let w1 := randint 0 (largeParts.length - 1) rng
    let first := openDoor (largeParts.getD w1.1 []) g w1.2
    doorChanceLoop largeParts w1.1 first.1 first.2
  else
    let sel := selectLoop parts
    if sel.2 ≠ -1 then openDoor (parts.getD sel.2.toNat []) g rng
    else (g, rng)

/-- The tree as `addDoors` sees it: a leaf has no wall (`wall = None`),
an inner node carries its wall, its `unusableWall` list and two
children. -/
inductive NTree where
  | leaf : NTree
  | node : List Pos → List Pos → NTree → NTree → NTree

/-- `addDoors(rootNode, array)` (GenerateMap.py lines 336-361): process
the left child, then the right child, then this node's own wall. -/
def addDoors : NTree → Grid → RNG → Grid × RNG
  | NTree.leaf, g, rng => (g, rng)
  | NTree.node w u l r, g, rng =>
    let a := addDoors l g rng
    let b := addDoors r a.1 a.2
    addDoorToWall w u b.1 b.2

/-! ## Concrete instances used by counterexamples and witnesses -/

/-- A grid holding a wall in every cell; concrete background for door
counterexamples. -/
def gAllWall : Grid := fun _ _ => Cell.wall

/-- A 3-cell wall along row 1. -/
def W3 : List Pos := [(1, 1), (2, 1), (3, 1)]

/-- An 8-cell wall along row 5. -/
def W8 : List Pos := [(1, 5), (2, 5), (3, 5), (4, 5), (5, 5), (6, 5), (7, 5), (8, 5)]

/-- Unusable positions splitting `W8` into parts of lengths 1, 3, 2. -/
def U8 : List Pos := [(2, 5), (6, 5)]

/-- A one-wall tree whose wall is `W8` with unusable set `U8`. -/
def T8 : NTree := NTree.node W8 U8 NTree.leaf NTree.leaf

/-- A 15-cell wall along row 5. -/
def W15 : List Pos := [(1, 5), (2, 5), (3, 5), (4, 5), (5, 5), (6, 5), (7, 5), (8, 5),
  (9, 5), (10, 5), (11, 5), (12, 5), (13, 5), (14, 5), (15, 5)]

/-- A 17-cell wall along row 5. -/
def W17 : List Pos := [(1, 5), (2, 5), (3, 5), (4, 5), (5, 5), (6, 5), (7, 5), (8, 5),
  (9, 5), (10, 5), (11, 5), (12, 5), (13, 5), (14, 5), (15, 5), (16, 5), (17, 5)]

/-! ## Node flags, edge list, and wall-block extraction -/

/-- The `outside` flag set by `node.__init__` (GenerateMap.py line 38):
`xMin == 0 or yMin == 0 or xMax == len(array[0]) - 1 or
yMax == len(array)`, with the 250 by 200 grid, i.e. `xMax == 249 or
yMax == 200` — the last comparison uses `len(array)` (200), not
`len(array) - 1` (199). -/
def nodeOutside (xMin xMax yMin yMax : Nat) : Bool :=
  xMin == 0 || yMin == 0 || xMax == 249 || yMax == 200

/-- The property the spec states for the flag: the rectangle touches the
grid edge of the 250 by 200 grid. -/
def touchesGridEdge (xMin xMax yMin yMax : Nat) : Bool :=
  xMin == 0 || yMin == 0 || xMax == 249 || yMax == 199

/-- The `basePossible` flag set by `node.__init__` (GenerateMap.py line
34): `(xMax - xMin) - 2 > 20 and (yMax - yMin) - 2 > 20`.  (With the
truncated subtraction on `Nat` the condition is false whenever
`xMax ≤ xMin`, exactly as the Python integers make it.) -/
def nodeBasePossible (xMin xMax yMin yMax : Nat) : Bool :=
  decide (20 < xMax - xMin - 2) && decide (20 < yMax - yMin - 2)

/-- `generateEdges(array)` (GenerateMap.py lines 630-651): first every
`[j, i]` for `i < 200`, `j ∈ {0, 249}`; then every `[i, j]` for
`i < 250`, `j ∈ {0, 199}` that is not already present. -/
def generateEdges : List Pos :=
  let p1 := (List.range 200).foldl (fun acc i => (acc ++ [(0, i)]) ++ [(249, i)]) []
  (List.range 250).foldl (fun acc i =>
    let acc0 := if (i, 0) ∈ acc then acc else acc ++ [(i, 0)]
    if (i, 199) ∈ acc0 then acc0 else acc0 ++ [(i, 199)]) p1

/-- The `for bit in part: if bit in usedPos: part.remove(bit)` loop of
`createAllWallBlocks` (GenerateMap.py lines 443-445), with Python's
exact semantics: the iterator advances by index while `remove` deletes
the first occurrence of the value, so the element following a removed
one is skipped.  The loop ends once the index reaches the current
length; the index grows by one per iteration and the length never
grows, so `part.length` iterations always suffice for the fuel. -/
def removeUsedGo (used : List Pos) : Nat → Nat → List Pos → List Pos
  | 0, _, part => part
  | fuel + 1, i, part =>
    if h : i < part.length then
      let bit := part.get ⟨i, h⟩
      if bit ∈ used then removeUsedGo used fuel (i + 1) (part.erase bit)
      else removeUsedGo used fuel (i + 1) part
    else part

/-- The removal loop started at index 0 with sufficient fuel. -/
def removeUsedLoop (used part : List Pos) : List Pos :=
  removeUsedGo used part.length 0 part

/-- A node as `createAllWallBlocks` reads it: its `wallParts` (computed
beforehand by `generateWallParts`) plus optional children. -/
inductive PTree where
  | pnode : List (List Pos) → Option PTree → Option PTree → PTree

/-- One wall block, kept as its two grid endpoints `part[0]` and
`part[-1]`; the emitted world-space descriptor
`WorldCreator.transformFromBounds(part[0], part[-1])` is an affine image
of exactly these two coordinates, so cell claims are decided here in
grid space. -/
abbrev WallBlock := Pos × Pos

/-- The per-node part loop of `createAllWallBlocks` (GenerateMap.py
lines 438-453): filter each part with the removal loop, emit a block
spanning the filtered part's first and last coordinates when it is
non-empty, and append the filtered part's cells to `usedPos`. -/
def processParts : List (List Pos) → List Pos → List WallBlock × List Pos
  | [], used => ([], used)
  | part :: restParts, used =>
    let part' := removeUsedLoop used part
    let blocks :=
      if 0 < part'.length then [(part'.headD (0, 0), part'.getLastD (0, 0))] else []
    let rest := processParts restParts (used ++ part')
    (blocks ++ rest.1, rest.2)

/-- `createAllWallBlocks(rootNode, usedPos)` (GenerateMap.py lines
429-471): emit this node's blocks, then the left subtree's, then the
right subtree's, threading `usedPos` through. -/
def createAllWallBlocks : PTree → List Pos → List WallBlock × List Pos
  | PTree.pnode parts l r, used =>
    let own := processParts parts used
    let lres :=
      match l with
      | some lt => createAllWallBlocks lt own.2
      | none => ([], own.2)
    let rres :=
      match r with
      | some rt => createAllWallBlocks rt lres.2
      | none => ([], lres.2)
    (own.1 ++ lres.1 ++ rres.1, rres.2)

/-- The grid cells a wall block spans: the axis-aligned rectangle
between its two endpoints, inclusive. -/
def inSpan (b : WallBlock) (q : Pos) : Prop :=
  min b.1.1 b.2.1 ≤ q.1 ∧ q.1 ≤ max b.1.1 b.2.1 ∧
    min b.1.2 b.2.2 ≤ q.2 ∧ q.2 ≤ max b.1.2 b.2.2

instance (b : WallBlock) (q : Pos) : Decidable (inSpan b q) := by
  unfold inSpan
  infer_instance

/-- A horizontal straight segment of cells `(a, r), (a+1, r), …`:
the shape of a horizontal wall (and of every contiguous piece of one)
as `splitNode` appends it, `wall.append([xPos, r])`. -/
def hseg (r a n : Nat) : List Pos := (List.range' a n).map (fun t => (t, r))

/-- A vertical straight segment of cells `(c, a), (c, a+1), …`: the
shape of a vertical wall as `splitNode` appends it,
`wall.append([r, yPos])`. -/
def vseg (c a n : Nat) : List Pos := (List.range' a n).map (fun t => (c, t))

/-- A straight contiguous segment of grid cells, horizontal or
vertical.  Every wall `splitNode` carves is one, and every wall part
`generateWallParts` collects is a contiguous run of one, hence again
one. -/
def IsSeg (p : List Pos) : Prop :=
  (∃ r a n, p = hseg r a n) ∨ (∃ c a n, p = vseg c a n)

/-- All wall-part cells of a tree in the pre-order `createAllWallBlocks`
processes them (own parts, left subtree, right subtree). -/
def flatCells : PTree → List Pos
  | PTree.pnode parts none none => parts.flatten
  | PTree.pnode parts (some lt) none => parts.flatten ++ flatCells lt
  | PTree.pnode parts none (some rt) => parts.flatten ++ flatCells rt
  | PTree.pnode parts (some lt) (some rt) => parts.flatten ++ flatCells lt ++ flatCells rt

/-- Specification predicate on one node's part list, processed against
the cell list `V`: each part is a straight segment, any of its cells
already in `V` — or in an earlier part — is the part's own first or
last cell, and no 2-cell part has both cells already in `V`.  (`V`
threads on by the part's full cell list, a superset of the cells the
code can have appended to `usedPos`.) -/
def GoodParts : List (List Pos) → List Pos → Prop
  | [], _ => True
  | p :: rest, V =>
    (IsSeg p ∧
      (∀ c ∈ p, c ∈ V → c = p.headD (0, 0) ∨ c = p.getLastD (0, 0)) ∧
      ¬(p.length = 2 ∧ p.headD (0, 0) ∈ V ∧ p.getLastD (0, 0) ∈ V)) ∧
    GoodParts rest (V ++ p)

/-- Specification predicate: `GoodParts` holds at every node of the
tree, against the border seed plus all part cells processed earlier in
pre-order.  This is the shape every generation run produces: walls are
straight lines spanning their room, two distinct walls are never
collinear and share at most one cell, a wall meets the outer ring or
an earlier-processed wall only at its own two end cells, an end cell
of a wall contained in a contiguous part of it is that part's end
cell, and walls span whole rooms (length ≥ 20), so no 2-cell part
carries both wall ends. -/
def GoodPTree : PTree → List Pos → Prop
  | PTree.pnode parts none none, V => GoodParts parts V
  | PTree.pnode parts (some lt) none, V =>
    GoodParts parts V ∧ GoodPTree lt (V ++ parts.flatten)
  | PTree.pnode parts none (some rt), V =>
    GoodParts parts V ∧ GoodPTree rt (V ++ parts.flatten)
  | PTree.pnode parts (some lt) (some rt), V =>
    GoodParts parts V ∧ GoodPTree lt (V ++ parts.flatten) ∧
      GoodPTree rt (V ++ parts.flatten ++ flatCells lt)

/-- Invariant of one processing stage: the used list grows, everything
in the outgoing used list was already in `V` or among this stage's
cells `C`, every emitted block spans only cells that were fresh on
entry and are in the outgoing used list, and the emitted blocks are
pairwise span-disjoint. -/
def StageOK (U V : List Pos) (bs : List WallBlock) (U2 C : List Pos) : Prop :=
  (∀ c ∈ U, c ∈ U2) ∧ (∀ c ∈ U2, c ∈ V ∨ c ∈ C) ∧
    (∀ b ∈ bs, ∀ q : Pos, inSpan b q → q ∉ U ∧ q ∈ U2) ∧
    List.Pairwise (fun b b2 => ∀ q : Pos, ¬(inSpan b q ∧ inSpan b2 q)) bs

/-- Concrete two-node tree for the C4 witness: the child's horizontal
part ends at `(5,3)`, a cell of the parent's vertical part, exactly how
a child wall abuts the wall that spawned it. -/
def TW : PTree :=
  PTree.pnode [[(5, 1), (5, 2), (5, 3)]]
    (some (PTree.pnode [[(3, 3), (4, 3), (5, 3)]] none none)) none

/-! ## The partition tree, base placement, and the split carver -/

/-- A node rectangle `[xMin,xMax] × [yMin,yMax]` (`node.shape =
[[xMin, yMin], [xMax, yMax]]`). -/
structure Rect where
  xMin : Nat
  xMax : Nat
  yMin : Nat
  yMax : Nat
deriving DecidableEq, Repr

/-- The completed partition tree as base placement reads it: every node
keeps its rectangle; a node has either two children or none. -/
inductive BTree where
  | lf : Rect → BTree
  | nd : Rect → BTree → BTree → BTree

/-- The rectangle of a node. -/
def rectOf : BTree → Rect
  | BTree.lf r => r
  | BTree.nd r _ _ => r

/-- `node.outside` of a rectangle (see `nodeOutside`). -/
def rectOutside (r : Rect) : Bool :=
  nodeOutside r.xMin r.xMax r.yMin r.yMax

/-- `node.basePossible` of a rectangle (see `nodeBasePossible`). -/
def rectBasePossible (r : Rect) : Bool :=
  nodeBasePossible r.xMin r.xMax r.yMin r.yMax

/-- The random descent of `addBase` (GenerateMap.py lines 503-510):
while the current node has children, move to a uniformly chosen child.
The list of 0/1 choices made from the starting node identifies the leaf
(standing in for Python's object identity, which the `basePresent` flag
is attached to). -/
def randDescend : BTree → List Nat → RNG → Rect × List Nat × RNG
  | BTree.lf r, path, rng => (r, path, rng)
  | BTree.nd _ l rt, path, rng =>
    let c := randint 0 1 rng
    if c.1 = 0 then randDescend l (path ++ [c.1]) c.2
    else randDescend rt (path ++ [c.1]) c.2

/-- The quadrant descent of `addBase` (GenerateMap.py lines 482-510):
two steps following the chosen quadrant's binary choices, each guarded
by the children existing, then the random descent to a leaf. -/
def quadDescend (root : BTree) (q : Nat × Nat) (rng : RNG) : Rect × List Nat × RNG :=
  match root with
  | BTree.lf r => (r, [], rng)
  | BTree.nd _ l rt =>
    match (if q.1 = 0 then l else rt) with
    | BTree.lf r2 => (r2, [q.1], rng)
    | BTree.nd _ l2 rt2 =>
      randDescend (if q.2 = 0 then l2 else rt2) [q.1, q.2] rng

/-- The placement block of `addBase` (GenerateMap.py lines 522-538):
shrink the leaf's bounds (`xMin+1`, `yMin+1`, `xMax-21`, `yMax-21`),
draw the base's top-left corner in the central third of the shrunk
range on each axis, and return the base square
`[[xPos, yPos], [xPos+20, yPos+20]]`. -/
def placeBase (rect : Rect) (rng : RNG) : (Pos × Pos) × RNG :=
  let xMin := rect.xMin + 1
  let yMin := rect.yMin + 1
  let xMax := rect.xMax - 21
  let yMax := rect.yMax - 21
  let xThird := (xMax - xMin) / 3
  let yThird := (yMax - yMin) / 3
  let xp := randint (xMin + xThird) (xMax - xThird) rng
  let yp := randint (yMin + yThird) (yMax - yThird) xp.2
  (((xp.1, yp.1), (xp.1 + 20, yp.1 + 20)), yp.2)

/-- One iteration of the `while not added` loop of `addBase`
(GenerateMap.py lines 481-544): pick a random quadrant, descend to a
leaf, accept it when it has no base yet (its path not in `placed`), is
big enough and lies outside; on acceptance place the base with
`placeBase` and return it with the used quadrant and the leaf's path. -/
def addBaseTry (root : BTree) (quads : List (Nat × Nat)) (placed : List (List Nat))
    (rng : RNG) : Option ((Pos × Pos) × (Nat × Nat) × List Nat) × RNG :=
  let rq := randint 0 (quads.length - 1) rng
  let q := quads.getD rq.1 (0, 0)
  let d := quadDescend root q rq.2
  let rect := d.1
  if d.2.1 ∉ placed ∧ rectBasePossible rect ∧ rectOutside rect then
    let b := placeBase rect d.2.2
    (some (b.1, q, d.2.1), b.2)
  else
    (none, d.2.2)

/-- The `while not added` loop of `addBase` with an iteration budget:
`none` models the source looping with every try rejected (the source
has no exit in that situation). -/
def addBaseGo (root : BTree) (quads : List (Nat × Nat)) (placed : List (List Nat)) :
    Nat → RNG → Option ((Pos × Pos) × (Nat × Nat) × List Nat) × RNG
  | 0, rng => (none, rng)
  | fuel + 1, rng =>
    match addBaseTry root quads placed rng with
    | (some res, rng') => (some res, rng')
    | (none, rng') => addBaseGo root quads placed fuel rng'

/-- The base-marking loop at the end of `addBase` (GenerateMap.py lines
546-555): mark every cell of the square (both bounds inclusive) with
`"b"`, guarded by `x > 0 and x < len(array[0]) - 1 and y > 0 and
y < len(array)`, i.e. `0 < x < 249` and `0 < y < 200`. -/
def markBase (base : Pos × Pos) (g : Grid) : Grid :=
  (List.range' base.1.1 (base.2.1 + 1 - base.1.1)).foldl (fun a x =>
    (List.range' base.1.2 (base.2.2 + 1 - base.1.2)).foldl (fun a2 y =>
      if 0 < x ∧ x < 249 ∧ 0 < y ∧ y < 200 then setCell a2 y x Cell.base else a2) a) g

/-- The body of `createBases` (GenerateMap.py lines 561-579), one
iteration per base: call `addBase`, mark the returned square, remove the
used quadrant (`quads.remove(used)` deletes the first occurrence, like
`List.erase`), and record the base.  The used quadrants are also
accumulated so the theorems can speak about them; the source drops
them.  `none` propagates an `addBase` call that never succeeded. -/
def createBasesGo (root : BTree) (fuel : Nat) :
    Nat → List (Nat × Nat) → List (List Nat) → Grid → List (Pos × Pos) →
      List (Nat × Nat) → RNG → Option (Grid × List (Pos × Pos) × List (Nat × Nat))
  | 0, _, _, g, bases, usedQs, _ => some (g, bases, usedQs)
  | k + 1, quads, placed, g, bases, usedQs, rng =>
    match addBaseGo root quads placed fuel rng with
    | (some (base, q, path), rng') =>
      createBasesGo root fuel k (quads.erase q) (placed ++ [path]) (markBase base g)
        (bases ++ [base]) (usedQs ++ [q]) rng'
    | (none, _) => none

/-- `createBases(array, rootNode)`: three bases, starting from the four
quadrants `[[0,0],[0,1],[1,0],[1,1]]`. -/
def createBases (root : BTree) (g : Grid) (fuel : Nat) (rng : RNG) :
    Option (Grid × List (Pos × Pos) × List (Nat × Nat)) :=
  createBasesGo root fuel 3 [(0, 0), (0, 1), (1, 0), (1, 1)] [] g [] [] rng

/-- Well-formed split trees: each inner node's children carry exactly
the rectangles `splitNode` constructs (horizontal split at row `s`:
upper `[yMin,s]` and lower `[s,yMax]`; vertical split at column `s`
likewise), with the split line strictly inside the rectangle.  (A split
line on the boundary is the degenerate geometry that section 7 of the
spec declares a fatal precondition violation.) -/
inductive WF : BTree → Prop where
  | leaf : ∀ r : Rect, r.xMin < r.xMax → r.yMin < r.yMax → WF (BTree.lf r)
  | horiz : ∀ (r : Rect) (s : Nat) (l rt : BTree), r.yMin < s → s < r.yMax →
      rectOf l = ⟨r.xMin, r.xMax, r.yMin, s⟩ → rectOf rt = ⟨r.xMin, r.xMax, s, r.yMax⟩ →
      WF l → WF rt → WF (BTree.nd r l rt)
  | vert : ∀ (r : Rect) (s : Nat) (l rt : BTree), r.xMin < s → s < r.xMax →
      rectOf l = ⟨r.xMin, s, r.yMin, r.yMax⟩ → rectOf rt = ⟨s, r.xMax, r.yMin, r.yMax⟩ →
      WF l → WF rt → WF (BTree.nd r l rt)

/-- Componentwise rectangle containment. -/
def subRect (a b : Rect) : Prop :=
  b.xMin ≤ a.xMin ∧ a.xMax ≤ b.xMax ∧ b.yMin ≤ a.yMin ∧ a.yMax ≤ b.yMax

/-- A grid cell strictly inside a rectangle. -/
def inRectInterior (r : Rect) (p : Pos) : Prop :=
  r.xMin < p.1 ∧ p.1 < r.xMax ∧ r.yMin < p.2 ∧ p.2 < r.yMax

/-- The cells of a base square `[[x1,y1],[x2,y2]]`, both corners
inclusive, exactly the ranges the marking loop iterates. -/
def inBase (b : Pos × Pos) (p : Pos) : Prop :=
  b.1.1 ≤ p.1 ∧ p.1 ≤ b.2.1 ∧ b.1.2 ≤ p.2 ∧ p.2 ≤ b.2.2

instance (b : Pos × Pos) (p : Pos) : Decidable (inBase b p) := by
  unfold inBase
  infer_instance

/-- The tree has two full levels below the root, as every completed
depth-4 generation run does. -/
def twoLevel : BTree → Bool
  | BTree.nd _ (BTree.nd _ _ _) (BTree.nd _ _ _) => true
  | _ => false

/-- The subtree reached from the root by a quadrant's two binary
choices. -/
def quadTree (root : BTree) (q : Nat × Nat) : BTree :=
  match root with
  | BTree.lf r => BTree.lf r
  | BTree.nd _ l rt =>
    match (if q.1 = 0 then l else rt) with
    | BTree.lf r2 => BTree.lf r2
    | BTree.nd _ l2 rt2 => if q.2 = 0 then l2 else rt2

/-- The border-wall invariant: every cell of the outer ring of the 250
by 200 grid holds a wall. -/
def borderWall (g : Grid) : Prop :=
  ∀ x, x < 250 → ∀ y, y < 200 → (y = 0 ∨ y = 199 ∨ x = 0 ∨ x = 249) → g y x = Cell.wall

/-- The wall-carving loops of `splitNode` (GenerateMap.py lines
193-214), taking the drawn direction and offset as arguments: write
`"w"` along the node's full extent at the offset (direction 0 writes
row `r`, direction 1 writes column `r`). -/
def carveWall (direction r xMin xMax yMin yMax : Nat) (g : Grid) : Grid :=
  if direction = 0 then
    (List.range' xMin (xMax + 1 - xMin)).foldl (fun a xPos => setCell a r xPos Cell.wall) g
  else
    (List.range' yMin (yMax + 1 - yMin)).foldl (fun a yPos => setCell a yPos r Cell.wall) g

/-- A wall list as `splitNode` produces it, seen from the border: its
coordinates are duplicate-free and only its first and last coordinate
may lie on the outer ring (a carved wall meets the border only at its
endpoints). -/
def GoodWall (w : List Pos) : Prop :=
  w.Nodup ∧ ∀ p ∈ w, (p.2 = 0 ∨ p.2 = 199 ∨ p.1 = 0 ∨ p.1 = 249) →
    p = w.headD (0, 0) ∨ p = w.getLastD (0, 0)

/-- Every wall in the tree satisfies `GoodWall`. -/
def GoodTree : NTree → Prop
  | NTree.leaf => True
  | NTree.node w _ l r => GoodWall w ∧ GoodTree l ∧ GoodTree r

/-- A contiguous slice: `w = s ++ p ++ t`. -/
def sliceOf (p w : List Pos) : Prop := ∃ s t, w = s ++ p ++ t

/-- Tree for the C9 scenario: the two quadrants reachable through the
left child contain only interior leaves (not on the border), so with
only the quadrants `[0,0]` and `[0,1]` left no eligible leaf exists. -/
def rootC9 : BTree :=
  BTree.nd ⟨0, 249, 0, 199⟩
    (BTree.nd ⟨0, 125, 0, 199⟩ (BTree.lf ⟨10, 80, 10, 90⟩) (BTree.lf ⟨10, 80, 90, 190⟩))
    (BTree.nd ⟨125, 249, 0, 199⟩ (BTree.lf ⟨130, 240, 10, 90⟩) (BTree.lf ⟨130, 240, 90, 190⟩))

/-- A well-formed two-level tree over the full grid whose four leaves
are the four quadrant rectangles; all four are border rooms large
enough for a base. -/
def rootW : BTree :=
  BTree.nd ⟨0, 249, 0, 199⟩
    (BTree.nd ⟨0, 125, 0, 199⟩ (BTree.lf ⟨0, 125, 0, 100⟩) (BTree.lf ⟨0, 125, 100, 199⟩))
    (BTree.nd ⟨125, 249, 0, 199⟩ (BTree.lf ⟨125, 249, 0, 100⟩) (BTree.lf ⟨125, 249, 100, 199⟩))

/-- Specification predicate: every cell of the base square lies strictly
inside the rectangle of the quadrant subtree selected by `q`. -/
def GoodBase (root : BTree) (b : Pos × Pos) (q : Nat × Nat) : Prop :=
  ∀ p : Pos, inBase b p → inRectInterior (rectOf (quadTree root q)) p

/-- Specification predicate: base `i` is a 21-by-21 square placed inside
the quadrant recorded at position `i`. -/
def BasesAligned (root : BTree) (bases : List (Pos × Pos)) (usedQs : List (Nat × Nat)) :
    Prop :=
  ∀ i, i < bases.length →
    GoodBase root (bases.getD i ((0, 0), (0, 0))) (usedQs.getD i (0, 0)) ∧
      (bases.getD i ((0, 0), (0, 0))).2.1 = (bases.getD i ((0, 0), (0, 0))).1.1 + 20 ∧
      (bases.getD i ((0, 0), (0, 0))).2.2 = (bases.getD i ((0, 0), (0, 0))).1.2 + 20

/-- The result of the witness run of `createBases` on `rootW`. -/
def resW : Grid × List (Pos × Pos) × List (Nat × Nat) :=
  (createBases rootW createEmptyWorld 1 []).getD (createEmptyWorld, [], [])

/-! ## Pointwise behaviour of the clearing loops -/

theorem clearAt_apply (a : Grid) (p : Pos) (y x : Nat) :
    clearAt a p y x = if p = (x, y) then Cell.empty else a y x := by
  simp only [clearAt, setCell]
  by_cases h : p = (x, y)
  · subst h
    simp
  · rw [if_neg, if_neg h]
    rintro ⟨h1, h2⟩
    exact h (Prod.ext h2.symm h1.symm)

theorem condClearFold_apply (I : List Nat) (C : Nat → Prop) [DecidablePred C] (f : Nat → Pos)
    (g : Grid) (y x : Nat) :
    (I.foldl (fun a i => if C i then clearAt a (f i) else a) g) y x
      = if ∃ i ∈ I, C i ∧ f i = (x, y) then Cell.empty else g y x := by
  induction I generalizing g with
  | nil => simp
  | cons i I ih =>
    simp only [List.foldl_cons]
    rw [ih]
    by_cases hex : ∃ j ∈ I, C j ∧ f j = (x, y)
    · rw [if_pos hex, if_pos ⟨hex.choose, List.mem_cons_of_mem i hex.choose_spec.1,
        hex.choose_spec.2⟩]
    · rw [if_neg hex]
      by_cases hc : C i
      · rw [if_pos hc, clearAt_apply]
        by_cases hf : f i = (x, y)
        · rw [if_pos hf, if_pos ⟨i, List.mem_cons_self i I, hc, hf⟩]
        · rw [if_neg hf, if_neg]
          rintro ⟨j, hj, hcj, hfj⟩
          rcases List.mem_cons.mp hj with rfl | hj'
          · exact hf hfj
          · exact hex ⟨j, hj', hcj, hfj⟩
      · rw [if_neg hc, if_neg]
        rintro ⟨j, hj, hcj, hfj⟩
        rcases List.mem_cons.mp hj with rfl | hj'
        · exact hc hcj
        · exact hex ⟨j, hj', hcj, hfj⟩

theorem clearFold_apply (I : List Nat) (f : Nat → Pos) (g : Grid) (y x : Nat) :
    (I.foldl (fun a i => clearAt a (f i)) g) y x
      = if ∃ i ∈ I, f i = (x, y) then Cell.empty else g y x := by
  induction I generalizing g with
  | nil => simp
  | cons i I ih =>
    simp only [List.foldl_cons]
    rw [ih]
    by_cases hex : ∃ j ∈ I, f j = (x, y)
    · rw [if_pos hex, if_pos ⟨hex.choose, List.mem_cons_of_mem i hex.choose_spec.1,
        hex.choose_spec.2⟩]
    · rw [if_neg hex, clearAt_apply]
      by_cases hf : f i = (x, y)
      · rw [if_pos hf, if_pos ⟨i, List.mem_cons_self i I, hf⟩]
      · rw [if_neg hf, if_neg]
        rintro ⟨j, hj, hfj⟩
        rcases List.mem_cons.mp hj with rfl | hj'
        · exact hf hfj
        · exact hex ⟨j, hj', hfj⟩

theorem randint_bounds (lo hi : Nat) (rng : RNG) (h : lo ≤ hi) :
    lo ≤ (randint lo hi rng).1 ∧ (randint lo hi rng).1 ≤ hi := by
  refine ⟨Nat.le_add_right lo _, ?_⟩
  have : rng.headD 0 % (hi + 1 - lo) < hi + 1 - lo := Nat.mod_lt _ (by omega)
  simp only [randint]
  omega

theorem openDoorLong_apply (wall : List Pos) (g : Grid) (r : Nat) (y x : Nat) :
    openDoorLong wall g r y x
      = if ∃ i ∈ List.range 15, i + r < wall.length ∧ wall.getD (i + r) (0, 0) = (x, y)
        then Cell.empty else g y x :=
  condClearFold_apply (List.range 15) (fun i => i + r < wall.length)
    (fun i => wall.getD (i + r) (0, 0)) g y x

theorem openDoorShort_apply (wall : List Pos) (g : Grid) (y x : Nat) :
    openDoorShort wall g y x
      = if (x, y) ∈ (List.range' 1 (wall.length - 2)).map (fun i => wall.getD i (0, 0))
        then Cell.empty else g y x := by
  by_cases hm : (x, y) ∈ (List.range' 1 (wall.length - 2)).map (fun i => wall.getD i (0, 0))
  · rw [if_pos hm, openDoorShort, clearFold_apply, if_pos (List.mem_map.mp hm)]
  · rw [if_neg hm, openDoorShort, clearFold_apply,
      if_neg (fun hex => hm (List.mem_map.mpr hex))]

theorem getD_mem {α : Type} (l : List α) (d : α) (j : Nat) (h : j < l.length) :
    l.getD j d ∈ l := by
  rw [List.getD_eq_getElem l d h]
  exact List.getElem_mem h

theorem getD_inj {α : Type} (l : List α) (d : α) (hnd : l.Nodup) {i j : Nat}
    (hi : i < l.length) (hj : j < l.length) (h : l.getD i d = l.getD j d) : i = j := by
  rw [List.getD_eq_getElem l d hi, List.getD_eq_getElem l d hj] at h
  exact (hnd.getElem_inj_iff).mp h

theorem headD_eq_getD {α : Type} (l : List α) (d : α) (h : l ≠ []) :
    l.headD d = l.getD 0 d := by
  cases l with
  | nil => exact absurd rfl h
  | cons a t => rfl

theorem getLastD_eq_getD {α : Type} (l : List α) (d : α) :
    l.getLastD d = l.getD (l.length - 1) d := by
  rw [List.getLastD_eq_getLast?, List.getLast?_eq_getElem?, List.getD_eq_getElem?_getD]

/-- Every cell `openDoor` touches is a wall cell with index in
`[1, len - 2]`, and it is set to empty; every other cell keeps its
value. -/
theorem openDoor_changes (wall : List Pos) (g : Grid) (rng : RNG) (y x : Nat) :
    (openDoor wall g rng).1 y x = g y x ∨
      ((openDoor wall g rng).1 y x = Cell.empty ∧
        ∃ j, j < wall.length ∧ 1 ≤ j ∧ j + 2 ≤ wall.length ∧ wall.getD j (0, 0) = (x, y)) := by
  by_cases h : 16 < wall.length
  · have hr := randint_bounds 1 (wall.length - 16) rng (by omega)
    have hfst : (openDoor wall g rng).1
        = openDoorLong wall g (randint 1 (wall.length - 16) rng).1 := by
      rw [openDoor, if_pos h]
    rw [hfst, openDoorLong_apply]
    by_cases hex : ∃ i ∈ List.range 15,
        i + (randint 1 (wall.length - 16) rng).1 < wall.length ∧
          wall.getD (i + (randint 1 (wall.length - 16) rng).1) (0, 0) = (x, y)
    · rw [if_pos hex]
      obtain ⟨i, hi, hlt, heq⟩ := hex
      have hi15 : i < 15 := List.mem_range.mp hi
      exact Or.inr ⟨rfl, i + (randint 1 (wall.length - 16) rng).1, hlt, by omega, by omega, heq⟩
    · rw [if_neg hex]
      exact Or.inl rfl
  · have hfst : (openDoor wall g rng).1 = openDoorShort wall g := by
      rw [openDoor, if_neg h]
    rw [hfst, openDoorShort_apply]
    by_cases hm : (x, y) ∈ (List.range' 1 (wall.length - 2)).map (fun i => wall.getD i (0, 0))
    · rw [if_pos hm]
      obtain ⟨i, hi, heq⟩ := List.mem_map.mp hm
      have := List.mem_range'_1.mp hi
      exact Or.inr ⟨rfl, i, by omega, by omega, by omega, heq⟩
    · rw [if_neg hm]
      exact Or.inl rfl

theorem openDoor_preserves_empty (wall : List Pos) (g : Grid) (rng : RNG) (y x : Nat)
    (h : g y x = Cell.empty) : (openDoor wall g rng).1 y x = Cell.empty := by
  rcases openDoor_changes wall g rng y x with h1 | ⟨h1, _⟩
  · rw [h1]; exact h
  · exact h1

theorem openDoor_not_mem (wall : List Pos) (g : Grid) (rng : RNG) (y x : Nat)
    (hx : (x, y) ∉ wall) : (openDoor wall g rng).1 y x = g y x := by
  rcases openDoor_changes wall g rng y x with h1 | ⟨_, j, hj, _, _, heq⟩
  · exact h1
  · exact absurd (heq ▸ getD_mem wall (0, 0) j hj) hx

theorem openDoor_changed_empty (wall : List Pos) (g : Grid) (rng : RNG) (y x : Nat)
    (hne : (openDoor wall g rng).1 y x ≠ g y x) :
    (openDoor wall g rng).1 y x = Cell.empty := by
  rcases openDoor_changes wall g rng y x with h1 | ⟨h1, _⟩
  · exact absurd h1 hne
  · exact h1

theorem openDoor_endpoints (wall : List Pos) (g : Grid) (rng : RNG) (hnd : wall.Nodup)
    (hne : wall ≠ []) :
    (openDoor wall g rng).1 (wall.headD (0, 0)).2 (wall.headD (0, 0)).1
        = g (wall.headD (0, 0)).2 (wall.headD (0, 0)).1 ∧
      (openDoor wall g rng).1 (wall.getLastD (0, 0)).2 (wall.getLastD (0, 0)).1
        = g (wall.getLastD (0, 0)).2 (wall.getLastD (0, 0)).1 := by
  have hlen : 0 < wall.length := List.length_pos.mpr hne
  constructor
  · rcases openDoor_changes wall g rng (wall.headD (0, 0)).2 (wall.headD (0, 0)).1 with
      h1 | ⟨_, j, hj, hj1, _, heq⟩
    · exact h1
    · exfalso
      have heq' : wall.getD j (0, 0) = wall.getD 0 (0, 0) := by
        rw [heq, Prod.mk.eta, headD_eq_getD wall (0, 0) hne]
      have := getD_inj wall (0, 0) hnd hj hlen heq'
      omega
  · rcases openDoor_changes wall g rng (wall.getLastD (0, 0)).2 (wall.getLastD (0, 0)).1 with
      h1 | ⟨_, j, hj, _, hj2, heq⟩
    · exact h1
    · exfalso
      have heq' : wall.getD j (0, 0) = wall.getD (wall.length - 1) (0, 0) := by
        rw [heq, Prod.mk.eta, getLastD_eq_getD wall (0, 0)]
      have := getD_inj wall (0, 0) hnd hj (by omega) heq'
      omega

/-- C10: the only grid cells `openDoor(wall, array)` changes are cells
whose coordinates appear in the wall list, every changed cell is set to
empty, and — for the duplicate-free walls the generator builds — the
first and the last coordinate of the wall are never changed, whatever
the wall's length. -/
theorem openDoor_frame (wall : List Pos) (g : Grid) (rng : RNG) :
    (∀ y x : Nat, (x, y) ∉ wall → (openDoor wall g rng).1 y x = g y x) ∧
    (∀ y x : Nat, (openDoor wall g rng).1 y x ≠ g y x →
      (openDoor wall g rng).1 y x = Cell.empty) ∧
    (wall.Nodup → wall ≠ [] →
      (openDoor wall g rng).1 (wall.headD (0, 0)).2 (wall.headD (0, 0)).1
          = g (wall.headD (0, 0)).2 (wall.headD (0, 0)).1 ∧
        (openDoor wall g rng).1 (wall.getLastD (0, 0)).2 (wall.getLastD (0, 0)).1
          = g (wall.getLastD (0, 0)).2 (wall.getLastD (0, 0)).1) :=
  ⟨fun y x hx => openDoor_not_mem wall g rng y x hx,
    fun y x hne => openDoor_changed_empty wall g rng y x hne,
    fun hnd hne => openDoor_endpoints wall g rng hnd hne⟩

/-- Witness for C10 at a concrete call: wall `W3` on the all-wall grid.
Cell (9, 9) is not on the wall and keeps its value, the changed interior
cell (2, 1) became empty, and both endpoints keep their value. -/
theorem openDoor_frame_witness :
    (openDoor W3 gAllWall []).1 9 9 = gAllWall 9 9 ∧
      (openDoor W3 gAllWall []).1 1 2 = Cell.empty ∧
      ((openDoor W3 gAllWall []).1 (W3.headD (0, 0)).2 (W3.headD (0, 0)).1
          = gAllWall (W3.headD (0, 0)).2 (W3.headD (0, 0)).1 ∧
        (openDoor W3 gAllWall []).1 (W3.getLastD (0, 0)).2 (W3.getLastD (0, 0)).1
          = gAllWall (W3.getLastD (0, 0)).2 (W3.getLastD (0, 0)).1) :=
  ⟨(openDoor_frame W3 gAllWall []).1 9 9 (by decide),
    (openDoor_frame W3 gAllWall []).2.1 1 2 (by decide),
    (openDoor_frame W3 gAllWall []).2.2 (by decide) (by decide)⟩

/-- C3 counterexample: a wall of length 15 forms a single large part
(length ≥ 15) and receives the initial door of `addDoorToWall`, yet
only 13 cells — the interior `1 … 13` — are cleared, not the 15
consecutive cells the claim asserts (`len(wall) > 16` fails for length
15, so `openDoor` takes its short branch). -/
theorem addDoorToWall_len15_counterexample :
    wallPartsOf W15 [] = [W15] ∧ 15 ≤ W15.length ∧
      (W15.filter (fun p =>
        (addDoorToWall W15 [] gAllWall [0, 0]).1 p.2 p.1 = Cell.empty)).length = 13 := by
  decide

/-- C3 (amended): a large part of length ≥ 17 that receives a door gets
a random offset `r ∈ [1, len − 16]` and exactly the 15 consecutive,
pairwise-distinct cells at indices `r … r + 14` (strictly inside the
part) set to empty, all other cells unchanged; a large part of length
15 or 16 instead gets every interior cell cleared, with both endpoints
and all other cells unchanged. -/
theorem openDoor_large_spec (wall : List Pos) (g : Grid) (rng : RNG) (hnd : wall.Nodup) :
    (17 ≤ wall.length →
      ∃ r, 1 ≤ r ∧ r + 16 ≤ wall.length ∧
        ((List.range 15).map (fun i => wall.getD (i + r) (0, 0))).Nodup ∧
        (∀ i, i < 15 →
          (openDoor wall g rng).1 (wall.getD (i + r) (0, 0)).2 (wall.getD (i + r) (0, 0)).1
            = Cell.empty) ∧
        (∀ j, j < wall.length → (j < r ∨ r + 14 < j) →
          (openDoor wall g rng).1 (wall.getD j (0, 0)).2 (wall.getD j (0, 0)).1
            = g (wall.getD j (0, 0)).2 (wall.getD j (0, 0)).1) ∧
        (∀ y x : Nat, (x, y) ∉ wall → (openDoor wall g rng).1 y x = g y x)) ∧
    (15 ≤ wall.length → wall.length ≤ 16 →
      (∀ j, 1 ≤ j → j + 2 ≤ wall.length →
        (openDoor wall g rng).1 (wall.getD j (0, 0)).2 (wall.getD j (0, 0)).1 = Cell.empty) ∧
      (openDoor wall g rng).1 (wall.headD (0, 0)).2 (wall.headD (0, 0)).1
          = g (wall.headD (0, 0)).2 (wall.headD (0, 0)).1 ∧
      (openDoor wall g rng).1 (wall.getLastD (0, 0)).2 (wall.getLastD (0, 0)).1
          = g (wall.getLastD (0, 0)).2 (wall.getLastD (0, 0)).1) := by
  constructor
  · intro h17
    have h16 : 16 < wall.length := by omega
    have hr := randint_bounds 1 (wall.length - 16) rng (by omega)
    have hfst : (openDoor wall g rng).1
        = openDoorLong wall g (randint 1 (wall.length - 16) rng).1 := by
      rw [openDoor, if_pos h16]
    refine ⟨(randint 1 (wall.length - 16) rng).1, hr.1, by omega, ?_, ?_, ?_, ?_⟩
    · refine List.Nodup.map_on ?_ (List.nodup_range 15)
      intro i hi j hj hij
      have hi' : i < 15 := List.mem_range.mp hi
      have hj' : j < 15 := List.mem_range.mp hj
      have := getD_inj wall (0, 0) hnd
        (i := i + (randint 1 (wall.length - 16) rng).1)
        (j := j + (randint 1 (wall.length - 16) rng).1) (by omega) (by omega) hij
      omega
    · intro i hi
      rw [hfst, openDoorLong_apply, if_pos]
      exact ⟨i, List.mem_range.mpr hi, by omega, Prod.mk.eta.symm⟩
    · intro j hj hside
      rw [hfst, openDoorLong_apply, if_neg]
      rintro ⟨i, him, hlt, heq⟩
      have hi' : i < 15 := List.mem_range.mp him
      rw [Prod.mk.eta] at heq
      have := getD_inj wall (0, 0) hnd hlt hj heq
      omega
    · intro y x hx
      exact openDoor_not_mem wall g rng y x hx
  · intro h15 h16
    have hns : ¬ 16 < wall.length := by omega
    have hfst : (openDoor wall g rng).1 = openDoorShort wall g := by
      rw [openDoor, if_neg hns]
    refine ⟨?_, openDoor_endpoints wall g rng hnd (by intro he; rw [he] at h15; simp at h15)⟩
    intro j hj1 hj2
    rw [hfst, openDoorShort_apply, if_pos]
    exact List.mem_map.mpr ⟨j, List.mem_range'_1.mpr ⟨hj1, by omega⟩, Prod.mk.eta.symm⟩

/-- Witness for C3 at concrete calls: the 17-cell wall `W17` (long
branch) and the 15-cell wall `W15` (short branch), both on the all-wall
grid. -/
theorem openDoor_large_spec_witness :
    (∃ r, 1 ≤ r ∧ r + 16 ≤ W17.length ∧
      ((List.range 15).map (fun i => W17.getD (i + r) (0, 0))).Nodup ∧
      (∀ i, i < 15 →
        (openDoor W17 gAllWall []).1 (W17.getD (i + r) (0, 0)).2 (W17.getD (i + r) (0, 0)).1
          = Cell.empty) ∧
      (∀ j, j < W17.length → (j < r ∨ r + 14 < j) →
        (openDoor W17 gAllWall []).1 (W17.getD j (0, 0)).2 (W17.getD j (0, 0)).1
          = gAllWall (W17.getD j (0, 0)).2 (W17.getD j (0, 0)).1) ∧
      (∀ y x : Nat, (x, y) ∉ W17 → (openDoor W17 gAllWall []).1 y x = gAllWall y x)) ∧
    ((∀ j, 1 ≤ j → j + 2 ≤ W15.length →
        (openDoor W15 gAllWall []).1 (W15.getD j (0, 0)).2 (W15.getD j (0, 0)).1
          = Cell.empty) ∧
      (openDoor W15 gAllWall []).1 (W15.headD (0, 0)).2 (W15.headD (0, 0)).1
          = gAllWall (W15.headD (0, 0)).2 (W15.headD (0, 0)).1 ∧
      (openDoor W15 gAllWall []).1 (W15.getLastD (0, 0)).2 (W15.getLastD (0, 0)).1
          = gAllWall (W15.getLastD (0, 0)).2 (W15.getLastD (0, 0)).1) :=
  ⟨(openDoor_large_spec W17 gAllWall [] (by decide)).1 (by decide),
    (openDoor_large_spec W15 gAllWall [] (by decide)).2 (by decide) (by decide)⟩

/-! ## Wall parts: membership and the selection loop -/

theorem partsAux_mem_sub (unusable : List Pos) :
    ∀ (rest cur : List Pos) (p : List Pos), p ∈ partsAux unusable rest cur →
      ∀ q ∈ p, q ∈ cur ∨ q ∈ rest := by
  intro rest
  induction rest with
  | nil =>
    intro cur p hp q hq
    simp only [partsAux] at hp
    split at hp
    · simp at hp
    · simp only [List.mem_singleton] at hp
      subst hp
      exact Or.inl hq
  | cons a rest ih =>
    intro cur p hp q hq
    simp only [partsAux] at hp
    split at hp
    · split at hp
      · rcases ih [] p hp q hq with h | h
        · simp at h
        · exact Or.inr (List.mem_cons_of_mem a h)
      · rcases List.mem_cons.mp hp with rfl | hp'
        · exact Or.inl hq
        · rcases ih [] p hp' q hq with h | h
          · simp at h
          · exact Or.inr (List.mem_cons_of_mem a h)
    · rcases ih (cur ++ [a]) p hp q hq with h | h
      · rcases List.mem_append.mp h with h' | h'
        · exact Or.inl h'
        · simp only [List.mem_singleton] at h'
          refine Or.inr ?_
          rw [h']
          exact List.mem_cons_self a rest
      · exact Or.inr (List.mem_cons_of_mem a h)

theorem wallPartsOf_mem_sub (wall unusable : List Pos) (p : List Pos)
    (hp : p ∈ wallPartsOf wall unusable) : ∀ q ∈ p, q ∈ wall := by
  intro q hq
  rcases partsAux_mem_sub unusable wall [] p hp q hq with h | h
  · simp at h
  · exact h

theorem selectFold_inv (parts : List (List Pos)) (I : List Nat)
    (hI : ∀ i ∈ I, 1 ≤ i ∧ i < parts.length) (st : Int × Int)
    (h1 : st.1 = (parts.length : Int))
    (h2 : st.2 = 0 ∨ (1 ≤ st.2 ∧ 2 ≤ parts.length ∧
      (parts.length : Int) < ((parts.getD st.2.toNat []).length : Int)))
    (h3 : st.2.toNat < parts.length) :
    (I.foldl (selectStep parts) st).1 = (parts.length : Int) ∧
      ((I.foldl (selectStep parts) st).2 = 0 ∨
        (1 ≤ (I.foldl (selectStep parts) st).2 ∧ 2 ≤ parts.length ∧
          (parts.length : Int)
            < ((parts.getD (I.foldl (selectStep parts) st).2.toNat []).length : Int))) ∧
      (I.foldl (selectStep parts) st).2.toNat < parts.length := by
  induction I generalizing st with
  | nil => exact ⟨h1, h2, h3⟩
  | cons i I ih =>
    rw [List.foldl_cons]
    have hi := hI i (List.mem_cons_self i I)
    have hI' : ∀ j ∈ I, 1 ≤ j ∧ j < parts.length :=
      fun j hj => hI j (List.mem_cons_of_mem i hj)
    by_cases hc : ((parts.getD i []).length : Int) > st.1
    · have hstep : selectStep parts st i = ((parts.length : Int), (i : Int)) := by
        rw [selectStep, if_pos hc]
      rw [hstep]
      refine ih hI' ((parts.length : Int), (i : Int)) rfl (Or.inr ⟨?_, by omega, ?_⟩) ?_
      · show (1 : Int) ≤ (i : Int)
        exact_mod_cast hi.1
      · show (parts.length : Int) < ((parts.getD (i : Int).toNat []).length : Int)
        rw [Int.toNat_natCast]
        rw [h1] at hc
        exact hc
      · show (i : Int).toNat < parts.length
        rw [Int.toNat_natCast]
        exact hi.2
    · have hstep : selectStep parts st i = st := by
        rw [selectStep, if_neg hc]
      rw [hstep]
      exact ih hI' st h1 h2 h3

/-- If the part list is non-empty the selection loop returns a valid part
index, and the selected part either is the first part or has length
at least 3. -/
theorem selectLoop_spec (parts : List (List Pos)) (h : parts ≠ []) :
    0 ≤ (selectLoop parts).2 ∧ (selectLoop parts).2.toNat < parts.length ∧
      ((selectLoop parts).2 = 0 ∨
        3 ≤ ((parts.getD (selectLoop parts).2.toNat []).length)) := by
  have hn : 0 < parts.length := List.length_pos.mpr h
  have hrange : List.range parts.length = 0 :: List.range' 1 (parts.length - 1) := by
    rw [List.range_eq_range']
    cases hp : parts.length with
    | zero => omega
    | succ k => simp [List.range'_succ]
  have hfirst : selectStep parts (-1, -1) 0 = ((parts.length : Int), (0 : Int)) := by
    have hc : ((parts.getD 0 []).length : Int) > (-1, -1).1 := by
      show ((parts.getD 0 []).length : Int) > -1
      have := Int.natCast_nonneg (parts.getD 0 []).length
      omega
    rw [selectStep, if_pos hc]
    norm_num
  have hinv := selectFold_inv parts (List.range' 1 (parts.length - 1))
    (fun i hi => by
      have := List.mem_range'_1.mp hi
      omega)
    ((parts.length : Int), (0 : Int)) rfl (Or.inl rfl) (by simpa using hn)
  rw [selectLoop, hrange, List.foldl_cons, hfirst]
  refine ⟨?_, hinv.2.2, ?_⟩
  · rcases hinv.2.1 with h0 | ⟨h1', _, _⟩ <;> omega
  · rcases hinv.2.1 with h0 | ⟨_, _, hlen⟩
    · exact Or.inl h0
    · right
      omega

/-- Whatever the wall's length, provided it has at least 3 cells,
`openDoor` leaves at least one interior cell empty. -/
theorem openDoor_gap (wall : List Pos) (g : Grid) (rng : RNG) (h3 : 3 ≤ wall.length) :
    ∃ j, 1 ≤ j ∧ j + 2 ≤ wall.length ∧
      (openDoor wall g rng).1 (wall.getD j (0, 0)).2 (wall.getD j (0, 0)).1 = Cell.empty := by
  by_cases h16 : 16 < wall.length
  · have hr := randint_bounds 1 (wall.length - 16) rng (by omega)
    have hfst : (openDoor wall g rng).1
        = openDoorLong wall g (randint 1 (wall.length - 16) rng).1 := by
      rw [openDoor, if_pos h16]
    refine ⟨(randint 1 (wall.length - 16) rng).1, hr.1, by omega, ?_⟩
    rw [hfst, openDoorLong_apply, if_pos]
    exact ⟨0, List.mem_range.mpr (by omega), by omega, by rw [Nat.zero_add, Prod.mk.eta]⟩
  · have hfst : (openDoor wall g rng).1 = openDoorShort wall g := by
      rw [openDoor, if_neg h16]
    refine ⟨1, le_refl 1, by omega, ?_⟩
    rw [hfst, openDoorShort_apply, if_pos]
    exact List.mem_map.mpr ⟨1, List.mem_range'_1.mpr ⟨le_refl 1, by omega⟩, Prod.mk.eta.symm⟩

theorem chanceFold_preserves_empty (LP : List (List Pos)) (w1 : Nat) (y x : Nat) :
    ∀ (I : List Nat) (st : Grid × RNG), st.1 y x = Cell.empty →
      ((I.foldl (fun (st : Grid × RNG) i =>
          let c := randint 0 2 st.2
          if c.1 = 0 ∧ i ≠ w1 then openDoor (LP.getD i []) st.1 c.2
          else (st.1, c.2)) st).1) y x = Cell.empty := by
  intro I
  induction I with
  | nil => intro st h; exact h
  | cons i I ih =>
    intro st h
    rw [List.foldl_cons]
    apply ih
    show (if (randint 0 2 st.2).1 = 0 ∧ i ≠ w1
        then openDoor (LP.getD i []) st.1 (randint 0 2 st.2).2
        else (st.1, (randint 0 2 st.2).2)).1 y x = Cell.empty
    by_cases hc : (randint 0 2 st.2).1 = 0 ∧ i ≠ w1
    · rw [if_pos hc]
      exact openDoor_preserves_empty _ _ _ _ _ h
    · rw [if_neg hc]
      exact h

theorem doorChanceLoop_preserves_empty (LP : List (List Pos)) (w1 : Nat) (g : Grid)
    (rng : RNG) (y x : Nat) (h : g y x = Cell.empty) :
    (doorChanceLoop LP w1 g rng).1 y x = Cell.empty := by
  rw [doorChanceLoop]
  exact chanceFold_preserves_empty LP w1 y x (List.range LP.length) (g, rng) h

/-- C1 counterexample: the non-leaf tree `T8` carries wall `W8` whose
unusable positions `U8` split it into usable parts of lengths 1, 3 and
2.  After `addDoors` finishes, every cell of the wall still holds a
wall: the buggy longest-part selection picks the length-1 part and
`openDoor` clears none of its cells, so the wall has no gap at all. -/
theorem addDoors_no_gap_counterexample :
    (W8.filter (fun q =>
      decide ((addDoors T8 gAllWall []).1 q.2 q.1 = Cell.wall))).length = 8 := by
  decide

/-- C1 (amended): after `addDoorToWall` processes a wall, at least one
cell of the wall is empty, provided the wall has a usable part of
length ≥ 15, or its first usable part has length ≥ 3 (in the
no-large-part case the selection picks the first part unless it
switches to a part longer than the number of parts, which then also has
at least 3 cells). -/
theorem addDoorToWall_gap (wall unusable : List Pos) (g : Grid) (rng : RNG)
    (h : (∃ p ∈ wallPartsOf wall unusable, 15 ≤ p.length) ∨
      (wallPartsOf wall unusable ≠ [] ∧
        3 ≤ ((wallPartsOf wall unusable).headD []).length)) :
    ∃ q ∈ wall, (addDoorToWall wall unusable g rng).1 q.2 q.1 = Cell.empty := by
  set LP := (wallPartsOf wall unusable).filter (fun p => 15 ≤ p.length) with hLP
  by_cases hl : 0 < LP.length
  · have hr := randint_bounds 0 (LP.length - 1) rng (Nat.zero_le _)
    have hw1 : (randint 0 (LP.length - 1) rng).1 < LP.length := by omega
    set part := LP.getD (randint 0 (LP.length - 1) rng).1 [] with hpart
    have hmemLP : part ∈ LP := by
      rw [hpart]
      exact getD_mem LP [] _ hw1
    have hmemF : part ∈ (wallPartsOf wall unusable).filter (fun p => 15 ≤ p.length) := by
      rw [← hLP]
      exact hmemLP
    have hmemParts : part ∈ wallPartsOf wall unusable := (List.mem_filter.mp hmemF).1
    have hlen15 : 15 ≤ part.length := by simpa using (List.mem_filter.mp hmemF).2
    obtain ⟨j, hj1, hj2, hemp⟩ :=
      openDoor_gap part g (randint 0 (LP.length - 1) rng).2 (by omega)
    refine ⟨part.getD j (0, 0), ?_, ?_⟩
    · exact wallPartsOf_mem_sub wall unusable part hmemParts _
        (getD_mem part (0, 0) j (by omega))
    · have hl' : 0 < ((wallPartsOf wall unusable).filter (fun p => 15 ≤ p.length)).length := by
        rw [← hLP]
        exact hl
      have heq : addDoorToWall wall unusable g rng
          = doorChanceLoop LP (randint 0 (LP.length - 1) rng).1
              (openDoor part g (randint 0 (LP.length - 1) rng).2).1
              (openDoor part g (randint 0 (LP.length - 1) rng).2).2 := by
        rw [hpart, hLP]
        simp only [addDoorToWall]
        rw [if_pos hl']
      rw [heq]
      exact doorChanceLoop_preserves_empty LP _ _ _ _ _ hemp
  · have hne3 : wallPartsOf wall unusable ≠ [] ∧
        3 ≤ ((wallPartsOf wall unusable).headD []).length := by
      rcases h with ⟨p, hp, h15⟩ | h2
      · exfalso
        have hpl : p ∈ LP := by
          rw [hLP]
          exact List.mem_filter.mpr ⟨hp, by simpa using h15⟩
        exact hl (List.length_pos.mpr (List.ne_nil_of_mem hpl))
      · exact h2
    have spec := selectLoop_spec (wallPartsOf wall unusable) hne3.1
    have hsel : (selectLoop (wallPartsOf wall unusable)).2 ≠ -1 := by omega
    have hlen3 : 3 ≤ ((wallPartsOf wall unusable).getD
        (selectLoop (wallPartsOf wall unusable)).2.toNat []).length := by
      rcases spec.2.2 with h0 | h3
      · rw [h0]
        show 3 ≤ ((wallPartsOf wall unusable).getD (Int.toNat 0) []).length
        rw [show Int.toNat 0 = 0 from rfl,
          ← headD_eq_getD (wallPartsOf wall unusable) [] hne3.1]
        exact hne3.2
      · exact h3
    obtain ⟨j, hj1, hj2, hemp⟩ :=
      openDoor_gap ((wallPartsOf wall unusable).getD
        (selectLoop (wallPartsOf wall unusable)).2.toNat []) g rng hlen3
    refine ⟨((wallPartsOf wall unusable).getD
        (selectLoop (wallPartsOf wall unusable)).2.toNat []).getD j (0, 0), ?_, ?_⟩
    · exact wallPartsOf_mem_sub wall unusable _
        (getD_mem (wallPartsOf wall unusable) [] _ spec.2.1) _
        (getD_mem _ (0, 0) j (by omega))
    · have heq : addDoorToWall wall unusable g rng
          = openDoor ((wallPartsOf wall unusable).getD
              (selectLoop (wallPartsOf wall unusable)).2.toNat []) g rng := by
        simp only [addDoorToWall]
        rw [← hLP, if_neg hl, if_pos hsel]
      rw [heq]
      exact hemp

/-- Witness for C1's amended theorem: the 3-cell wall `W3` with no
unusable positions on the all-wall grid has a single part of length 3,
and a gap appears. -/
theorem addDoorToWall_gap_witness :
    ∃ q ∈ W3, (addDoorToWall W3 [] gAllWall []).1 q.2 q.1 = Cell.empty :=
  addDoorToWall_gap W3 [] gAllWall [] (Or.inr ⟨by decide, by decide⟩)

/-- C2: on the wall `W8` with unusable positions `U8` the usable parts
have lengths 1, 3, 2 — all shorter than 15 — yet the selection loop
picks index 0, a part of length 1, although part 1 has length 3.  The
slip `longest = len(wallParts)` (GenerateMap.py line 324) makes the
"selected part" not the longest part. -/
theorem selectLoop_not_longest :
    (wallPartsOf W8 U8).map List.length = [1, 3, 2] ∧
      (selectLoop (wallPartsOf W8 U8)).2 = 0 ∧
      ((wallPartsOf W8 U8).getD 0 []).length = 1 ∧
      ((wallPartsOf W8 U8).getD 1 []).length = 3 := by
  decide

/-! ## The edge list and the wall-block extraction -/

theorem generateEdges_mem (q : Pos) (h : q ∈ generateEdges) :
    q.1 = 0 ∨ q.1 = 249 ∨ q.2 = 0 ∨ q.2 = 199 := by
  have inv1 : ∀ (I : List Nat) (acc : List Pos),
      (∀ p ∈ acc, p.1 = 0 ∨ p.1 = 249 ∨ p.2 = 0 ∨ p.2 = 199) →
      ∀ p ∈ I.foldl (fun acc i => (acc ++ [(0, i)]) ++ [(249, i)]) acc,
        p.1 = 0 ∨ p.1 = 249 ∨ p.2 = 0 ∨ p.2 = 199 := by
    intro I
    induction I with
    | nil => intro acc hacc p hp; exact hacc p hp
    | cons i I ih =>
      intro acc hacc p hp
      refine ih _ ?_ p hp
      intro p' hp'
      rcases List.mem_append.mp hp' with h' | h'
      · rcases List.mem_append.mp h' with h'' | h''
        · exact hacc p' h''
        · simp only [List.mem_singleton] at h''
          rw [h'']
          exact Or.inl rfl
      · simp only [List.mem_singleton] at h'
        rw [h']
        exact Or.inr (Or.inl rfl)
  have inv2 : ∀ (I : List Nat) (acc : List Pos),
      (∀ p ∈ acc, p.1 = 0 ∨ p.1 = 249 ∨ p.2 = 0 ∨ p.2 = 199) →
      ∀ p ∈ I.foldl (fun acc i =>
          let acc0 := if (i, 0) ∈ acc then acc else acc ++ [(i, 0)]
          if (i, 199) ∈ acc0 then acc0 else acc0 ++ [(i, 199)]) acc,
        p.1 = 0 ∨ p.1 = 249 ∨ p.2 = 0 ∨ p.2 = 199 := by
    intro I
    induction I with
    | nil => intro acc hacc p hp; exact hacc p hp
    | cons i I ih =>
      intro acc hacc p hp
      refine ih _ ?_ p hp
      intro p' hp'
      simp only at hp'
      split at hp'
      · split at hp'
        · exact hacc p' hp'
        · rcases List.mem_append.mp hp' with h' | h'
          · exact hacc p' h'
          · simp only [List.mem_singleton] at h'
            rw [h']
            exact Or.inr (Or.inr (Or.inr rfl))
      · have haccA : ∀ p'' ∈ acc ++ [(i, 0)],
            p''.1 = 0 ∨ p''.1 = 249 ∨ p''.2 = 0 ∨ p''.2 = 199 := by
          intro p'' hp''
          rcases List.mem_append.mp hp'' with h' | h'
          · exact hacc p'' h'
          · simp only [List.mem_singleton] at h'
            rw [h']
            exact Or.inr (Or.inr (Or.inl rfl))
        split at hp'
        · exact haccA p' hp'
        · rcases List.mem_append.mp hp' with h' | h'
          · exact haccA p' h'
          · simp only [List.mem_singleton] at h'
            rw [h']
            exact Or.inr (Or.inr (Or.inr rfl))
  have : ∀ p ∈ generateEdges, p.1 = 0 ∨ p.1 = 249 ∨ p.2 = 0 ∨ p.2 = 199 := by
    intro p hp
    simp only [generateEdges] at hp
    refine inv2 _ _ (inv1 _ [] (by simp)) p hp
  exact this q h

theorem not_mem_generateEdges (q : Pos) (h1 : q.1 ≠ 0) (h2 : q.1 ≠ 249) (h3 : q.2 ≠ 0)
    (h4 : q.2 ≠ 199) : q ∉ generateEdges := by
  intro h
  rcases generateEdges_mem q h with h' | h' | h' | h' <;> simp_all

theorem removeUsedGo_zero (used : List Pos) (i : Nat) (part : List Pos) :
    removeUsedGo used 0 i part = part := rfl

theorem removeUsedGo_stop (used : List Pos) (fuel i : Nat) (part : List Pos)
    (h : ¬ i < part.length) : removeUsedGo used (fuel + 1) i part = part := by
  rw [removeUsedGo, dif_neg h]

theorem removeUsedGo_step_not_mem (used : List Pos) (fuel i : Nat) (part : List Pos)
    (h : i < part.length) (hm : part.get ⟨i, h⟩ ∉ used) :
    removeUsedGo used (fuel + 1) i part = removeUsedGo used fuel (i + 1) part := by
  rw [removeUsedGo, dif_pos h]
  simp only [if_neg hm]

theorem removeUsedGo_step_mem (used : List Pos) (fuel i : Nat) (part : List Pos)
    (h : i < part.length) (hm : part.get ⟨i, h⟩ ∈ used) :
    removeUsedGo used (fuel + 1) i part
      = removeUsedGo used fuel (i + 1) (part.erase (part.get ⟨i, h⟩)) := by
  rw [removeUsedGo, dif_pos h]
  simp only [if_pos hm]

/-- C5: the node rectangle `[1,248] × [1,199]` touches the bottom grid
edge (`yMax = 199`), yet `node.__init__` computes `outside = False`: the
source compares `yMax` against `len(array)` (200) while the x-axis uses
`len(array[0]) - 1` (249).  For valid in-grid rectangles `yMax == 200`
never holds, so bottom-edge rectangles are never flagged. -/
theorem nodeOutside_bottom_edge_bug :
    nodeOutside 1 248 1 199 = false ∧ touchesGridEdge 1 248 1 199 = true := by
  decide

/-! ## Base placement -/

/-- C9: on the tree `rootC9`, with only the quadrants `[0,0]` and
`[0,1]` remaining (the situation of the third `createBases` iteration
after two bases used the other quadrants), every leaf the descent can
reach is an interior room, so every iteration of `addBase`'s
`while not added` loop rejects: for every iteration budget the loop is
still running — the source never surfaces a "no eligible base location"
error, it simply never terminates. -/
theorem addBase_no_eligible_loops_forever :
    ∀ (fuel : Nat) (placed : List (List Nat)) (rng : RNG),
      (addBaseGo rootC9 [(0, 0), (0, 1)] placed fuel rng).1 = none := by
  intro fuel
  induction fuel with
  | zero => intro placed rng; rfl
  | succ n ih =>
    intro placed rng
    have htry : (addBaseTry rootC9 [(0, 0), (0, 1)] placed rng).1 = none := by
      cases rng with
      | nil =>
        simp [addBaseTry, randint, quadDescend, randDescend, rootC9,
          rectOutside, nodeOutside]
      | cons v rest =>
        rcases (by omega : v % 2 = 0 ∨ v % 2 = 1) with h0 | h0
        · simp [addBaseTry, randint, h0, quadDescend, randDescend, rootC9,
            rectOutside, nodeOutside]
        · simp [addBaseTry, randint, h0, quadDescend, randDescend, rootC9,
            rectOutside, nodeOutside]
    have hpair : addBaseTry rootC9 [(0, 0), (0, 1)] placed rng
        = (none, (addBaseTry rootC9 [(0, 0), (0, 1)] placed rng).2) :=
      Prod.ext htry rfl
    rw [addBaseGo, hpair]
    exact ih placed _

theorem subRect_trans (a b c : Rect) (h1 : subRect a b) (h2 : subRect b c) : subRect a c := by
  simp only [subRect] at *
  omega

theorem WF_children (r : Rect) (l rt : BTree) (h : WF (BTree.nd r l rt)) :
    WF l ∧ WF rt ∧ subRect (rectOf l) r ∧ subRect (rectOf rt) r := by
  cases h with
  | horiz r s l rt h1 h2 hl hr wl wr =>
    refine ⟨wl, wr, ?_, ?_⟩ <;> simp only [subRect, hl, hr] <;> omega
  | vert r s l rt h1 h2 hl hr wl wr =>
    refine ⟨wl, wr, ?_, ?_⟩ <;> simp only [subRect, hl, hr] <;> omega

theorem WF_child_interiors_disjoint (r : Rect) (l rt : BTree) (h : WF (BTree.nd r l rt))
    (p : Pos) : ¬ (inRectInterior (rectOf l) p ∧ inRectInterior (rectOf rt) p) := by
  cases h with
  | horiz r s l rt h1 h2 hl hr wl wr =>
    rintro ⟨hp1, hp2⟩
    rw [hl] at hp1
    rw [hr] at hp2
    simp only [inRectInterior] at hp1 hp2
    omega
  | vert r s l rt h1 h2 hl hr wl wr =>
    rintro ⟨hp1, hp2⟩
    rw [hl] at hp1
    rw [hr] at hp2
    simp only [inRectInterior] at hp1 hp2
    omega

theorem inRectInterior_mono (a b : Rect) (p : Pos) (hs : subRect a b)
    (hp : inRectInterior a p) : inRectInterior b p := by
  simp only [subRect, inRectInterior] at *
  omega

theorem randDescend_sub : ∀ (t : BTree) (path : List Nat) (rng : RNG), WF t →
    subRect (randDescend t path rng).1 (rectOf t) := by
  intro t
  induction t with
  | lf r => intro path rng _; exact ⟨le_refl _, le_refl _, le_refl _, le_refl _⟩
  | nd r l rt ihl ihr =>
    intro path rng hwf
    obtain ⟨wl, wr, sl, sr⟩ := WF_children r l rt hwf
    simp only [randDescend]
    by_cases hc : (randint 0 1 rng).1 = 0
    · rw [if_pos hc]
      exact subRect_trans _ _ _ (ihl _ _ wl) sl
    · rw [if_neg hc]
      exact subRect_trans _ _ _ (ihr _ _ wr) sr

theorem quadDescend_sub (root : BTree) (q : Nat × Nat) (rng : RNG) (hwf : WF root)
    (h2 : twoLevel root = true) :
    subRect (quadDescend root q rng).1 (rectOf (quadTree root q)) ∧
      WF (quadTree root q) := by
  cases root with
  | lf r => simp [twoLevel] at h2
  | nd r l rt =>
    cases l with
    | lf r1 => simp [twoLevel] at h2
    | nd r1 a b =>
      cases rt with
      | lf r2 => simp [twoLevel] at h2
      | nd r2 c d =>
        obtain ⟨wl, wr, _, _⟩ := WF_children r _ _ hwf
        obtain ⟨wa, wb, _, _⟩ := WF_children r1 a b wl
        obtain ⟨wc, wd, _, _⟩ := WF_children r2 c d wr
        simp only [quadDescend, quadTree]
        by_cases h1 : q.1 = 0
        · rw [if_pos h1]
          simp only
          by_cases hq2 : q.2 = 0
          · rw [if_pos hq2]
            exact ⟨randDescend_sub a _ _ wa, wa⟩
          · rw [if_neg hq2]
            exact ⟨randDescend_sub b _ _ wb, wb⟩
        · rw [if_neg h1]
          simp only
          by_cases hq2 : q.2 = 0
          · rw [if_pos hq2]
            exact ⟨randDescend_sub c _ _ wc, wc⟩
          · rw [if_neg hq2]
            exact ⟨randDescend_sub d _ _ wd, wd⟩

theorem quad_interiors_disjoint (root : BTree) (hwf : WF root) (h2 : twoLevel root = true)
    (q q' : Nat × Nat)
    (hq : q ∈ [((0 : Nat), (0 : Nat)), (0, 1), (1, 0), (1, 1)])
    (hq' : q' ∈ [((0 : Nat), (0 : Nat)), (0, 1), (1, 0), (1, 1)])
    (hne : q ≠ q') (p : Pos) :
    ¬ (inRectInterior (rectOf (quadTree root q)) p ∧
        inRectInterior (rectOf (quadTree root q')) p) := by
  cases root with
  | lf r => simp [twoLevel] at h2
  | nd r l rt =>
    cases l with
    | lf r1 => simp [twoLevel] at h2
    | nd r1 a b =>
      cases rt with
      | lf r2 => simp [twoLevel] at h2
      | nd r2 c d =>
        obtain ⟨wl, wr, sl, sr⟩ := WF_children r _ _ hwf
        obtain ⟨wa, wb, sa, sb⟩ := WF_children r1 a b wl
        obtain ⟨wc, wd, sc, sd⟩ := WF_children r2 c d wr
        have hLR := WF_child_interiors_disjoint r _ _ hwf
        have hab := WF_child_interiors_disjoint r1 a b wl
        have hcd := WF_child_interiors_disjoint r2 c d wr
        have hcross : ∀ x : BTree, subRect (rectOf x) r1 → ∀ y : BTree,
            subRect (rectOf y) r2 → ∀ p : Pos,
            ¬ (inRectInterior (rectOf x) p ∧ inRectInterior (rectOf y) p) := by
          intro x hx y hy p hpy
          exact hLR p ⟨inRectInterior_mono _ _ _ hx hpy.1,
            inRectInterior_mono _ _ _ hy hpy.2⟩
        have e00 : quadTree (BTree.nd r (BTree.nd r1 a b) (BTree.nd r2 c d)) (0, 0) = a := rfl
        have e01 : quadTree (BTree.nd r (BTree.nd r1 a b) (BTree.nd r2 c d)) (0, 1) = b := rfl
        have e10 : quadTree (BTree.nd r (BTree.nd r1 a b) (BTree.nd r2 c d)) (1, 0) = c := rfl
        have e11 : quadTree (BTree.nd r (BTree.nd r1 a b) (BTree.nd r2 c d)) (1, 1) = d := rfl
        simp only [List.mem_cons, List.not_mem_nil, or_false] at hq hq'
        rcases hq with rfl | rfl | rfl | rfl <;> rcases hq' with rfl | rfl | rfl | rfl <;>
          simp only [e00, e01, e10, e11] <;>
          first
            | exact absurd rfl hne
            | exact hab p
            | exact fun h => hab p ⟨h.2, h.1⟩
            | exact hcd p
            | exact fun h => hcd p ⟨h.2, h.1⟩
            | exact hcross _ sa _ sc p
            | exact hcross _ sa _ sd p
            | exact hcross _ sb _ sc p
            | exact hcross _ sb _ sd p
            | exact fun h => hcross _ sa _ sc p ⟨h.2, h.1⟩
            | exact fun h => hcross _ sa _ sd p ⟨h.2, h.1⟩
            | exact fun h => hcross _ sb _ sc p ⟨h.2, h.1⟩
            | exact fun h => hcross _ sb _ sd p ⟨h.2, h.1⟩

theorem placeBase_spec (rect : Rect) (rng : RNG) (hposs : rectBasePossible rect = true) :
    (placeBase rect rng).1.2.1 = (placeBase rect rng).1.1.1 + 20 ∧
      (placeBase rect rng).1.2.2 = (placeBase rect rng).1.1.2 + 20 ∧
      rect.xMin + 1 ≤ (placeBase rect rng).1.1.1 ∧
      (placeBase rect rng).1.1.1 + 21 ≤ rect.xMax ∧
      rect.yMin + 1 ≤ (placeBase rect rng).1.1.2 ∧
      (placeBase rect rng).1.1.2 + 21 ≤ rect.yMax := by
  have hposs' : 20 < rect.xMax - rect.xMin - 2 ∧ 20 < rect.yMax - rect.yMin - 2 := by
    simpa [rectBasePossible, nodeBasePossible, Bool.and_eq_true, decide_eq_true_eq]
      using hposs
  have hx : rect.xMin + 23 ≤ rect.xMax := by omega
  have hy : rect.yMin + 23 ≤ rect.yMax := by omega
  have hxr := randint_bounds (rect.xMin + 1 + (rect.xMax - 21 - (rect.xMin + 1)) / 3)
    (rect.xMax - 21 - (rect.xMax - 21 - (rect.xMin + 1)) / 3) rng (by omega)
  have hyr := randint_bounds (rect.yMin + 1 + (rect.yMax - 21 - (rect.yMin + 1)) / 3)
    (rect.yMax - 21 - (rect.yMax - 21 - (rect.yMin + 1)) / 3)
    (randint (rect.xMin + 1 + (rect.xMax - 21 - (rect.xMin + 1)) / 3)
      (rect.xMax - 21 - (rect.xMax - 21 - (rect.xMin + 1)) / 3) rng).2 (by omega)
  simp only [placeBase]
  refine ⟨trivial, trivial, ?_, ?_, ?_, ?_⟩ <;> omega

theorem addBaseTry_spec (root : BTree) (quads : List (Nat × Nat)) (placed : List (List Nat))
    (rng : RNG) (base : Pos × Pos) (q : Nat × Nat) (path : List Nat) (rng' : RNG)
    (hq0 : quads ≠ [])
    (h : addBaseTry root quads placed rng = (some (base, q, path), rng')) :
    q ∈ quads ∧
      ∃ rect : Rect, (∃ rng2 : RNG, rect = (quadDescend root q rng2).1) ∧
        base.2.1 = base.1.1 + 20 ∧ base.2.2 = base.1.2 + 20 ∧
        rect.xMin + 1 ≤ base.1.1 ∧ base.1.1 + 21 ≤ rect.xMax ∧
        rect.yMin + 1 ≤ base.1.2 ∧ base.1.2 + 21 ≤ rect.yMax := by
  have hlen : 0 < quads.length := List.length_pos.mpr hq0
  have hrq := randint_bounds 0 (quads.length - 1) rng (Nat.zero_le _)
  simp only [addBaseTry] at h
  split at h
  case isTrue hacc =>
    obtain ⟨hplaced, hposs, hout⟩ := hacc
    simp only [Prod.mk.injEq, Option.some.injEq] at h
    obtain ⟨⟨hbase, hq, hpath⟩, hrng⟩ := h
    subst hq
    refine ⟨getD_mem quads (0, 0) _ (by omega), ?_⟩
    refine ⟨(quadDescend root (quads.getD (randint 0 (quads.length - 1) rng).1 (0, 0))
      (randint 0 (quads.length - 1) rng).2).1,
      ⟨(randint 0 (quads.length - 1) rng).2, rfl⟩, ?_⟩
    have hspec := placeBase_spec
      (quadDescend root (quads.getD (randint 0 (quads.length - 1) rng).1 (0, 0))
        (randint 0 (quads.length - 1) rng).2).1
      (quadDescend root (quads.getD (randint 0 (quads.length - 1) rng).1 (0, 0))
        (randint 0 (quads.length - 1) rng).2).2.2 hposs
    rw [← hbase]
    exact hspec
  case isFalse hacc => simp at h

theorem addBaseGo_spec (root : BTree) (quads : List (Nat × Nat)) (placed : List (List Nat))
    (hq0 : quads ≠ []) :
    ∀ (fuel : Nat) (rng : RNG) (base : Pos × Pos) (q : Nat × Nat) (path : List Nat)
      (rng' : RNG), addBaseGo root quads placed fuel rng = (some (base, q, path), rng') →
      q ∈ quads ∧
        ∃ rect : Rect, (∃ rng2 : RNG, rect = (quadDescend root q rng2).1) ∧
          base.2.1 = base.1.1 + 20 ∧ base.2.2 = base.1.2 + 20 ∧
          rect.xMin + 1 ≤ base.1.1 ∧ base.1.1 + 21 ≤ rect.xMax ∧
          rect.yMin + 1 ≤ base.1.2 ∧ base.1.2 + 21 ≤ rect.yMax := by
  intro fuel
  induction fuel with
  | zero =>
    intro rng base q path rng' h
    simp [addBaseGo] at h
  | succ n ih =>
    intro rng base q path rng' h
    rw [addBaseGo] at h
    rcases htry : addBaseTry root quads placed rng with ⟨o, rngx⟩
    rw [htry] at h
    cases o with
    | some res =>
      simp only [Prod.mk.injEq, Option.some.injEq] at h
      obtain ⟨h1, h2⟩ := h
      subst h1
      subst h2
      exact addBaseTry_spec root quads placed rng base q path rngx hq0 htry
    | none =>
      exact ih rngx base q path rng' h

theorem quadTree_sub (root : BTree) (q : Nat × Nat) (hwf : WF root)
    (h2 : twoLevel root = true) :
    subRect (rectOf (quadTree root q)) (rectOf root) := by
  cases root with
  | lf r => simp [twoLevel] at h2
  | nd r l rt =>
    cases l with
    | lf r1 => simp [twoLevel] at h2
    | nd r1 a b =>
      cases rt with
      | lf r2 => simp [twoLevel] at h2
      | nd r2 c d =>
        obtain ⟨wl, wr, sl, sr⟩ := WF_children r _ _ hwf
        obtain ⟨wa, wb, sa, sb⟩ := WF_children r1 a b wl
        obtain ⟨wc, wd, sc, sd⟩ := WF_children r2 c d wr
        simp only [quadTree]
        by_cases h1 : q.1 = 0
        · rw [if_pos h1]
          simp only
          by_cases hq2 : q.2 = 0
          · rw [if_pos hq2]
            exact subRect_trans _ _ _ sa sl
          · rw [if_neg hq2]
            exact subRect_trans _ _ _ sb sl
        · rw [if_neg h1]
          simp only
          by_cases hq2 : q.2 = 0
          · rw [if_pos hq2]
            exact subRect_trans _ _ _ sc sr
          · rw [if_neg hq2]
            exact subRect_trans _ _ _ sd sr

theorem addBaseGo_good (root : BTree) (quads : List (Nat × Nat)) (placed : List (List Nat))
    (fuel : Nat) (rng : RNG) (base : Pos × Pos) (q : Nat × Nat) (path : List Nat)
    (rng' : RNG) (hwf : WF root) (h2 : twoLevel root = true) (hq0 : quads ≠ [])
    (h : addBaseGo root quads placed fuel rng = (some (base, q, path), rng')) :
    q ∈ quads ∧ GoodBase root base q ∧
      base.2.1 = base.1.1 + 20 ∧ base.2.2 = base.1.2 + 20 := by
  obtain ⟨hqm, rect, ⟨rng2, hrect⟩, hb1, hb2, hx1, hx2, hy1, hy2⟩ :=
    addBaseGo_spec root quads placed hq0 fuel rng base q path rng' h
  refine ⟨hqm, ?_, hb1, hb2⟩
  intro p hp
  have hsub : subRect rect (rectOf (quadTree root q)) := by
    rw [hrect]
    exact (quadDescend_sub root q rng2 hwf h2).1
  refine inRectInterior_mono rect _ p hsub ?_
  simp only [inBase] at hp
  simp only [inRectInterior]
  omega

theorem getD_append_lt {α : Type} (l1 l2 : List α) (d : α) (i : Nat) (h : i < l1.length) :
    (l1 ++ l2).getD i d = l1.getD i d := by
  rw [List.getD_eq_getElem _ _ (by simp; omega), List.getD_eq_getElem _ _ h]
  exact List.getElem_append_left h

theorem getD_append_len {α : Type} (l1 : List α) (x : α) (d : α) :
    (l1 ++ [x]).getD l1.length d = x := by
  rw [List.getD_eq_getElem _ _ (by simp)]
  rw [List.getElem_append_right (le_refl l1.length)]
  simp

theorem createBasesGo_spec (root : BTree) (fuel : Nat) (hwf : WF root)
    (h2 : twoLevel root = true) :
    ∀ (k : Nat) (quads : List (Nat × Nat)) (placed : List (List Nat)) (g : Grid)
      (bases : List (Pos × Pos)) (usedQs : List (Nat × Nat)) (rng : RNG)
      (res : Grid × List (Pos × Pos) × List (Nat × Nat)),
      createBasesGo root fuel k quads placed g bases usedQs rng = some res →
      k ≤ quads.length →
      (∀ q ∈ quads, q ∈ [((0 : Nat), (0 : Nat)), (0, 1), (1, 0), (1, 1)]) →
      quads.Nodup →
      (∀ q ∈ quads, q ∉ usedQs) →
      usedQs.Nodup →
      (∀ q ∈ usedQs, q ∈ [((0 : Nat), (0 : Nat)), (0, 1), (1, 0), (1, 1)]) →
      bases.length = usedQs.length →
      BasesAligned root bases usedQs →
      res.2.1.length = bases.length + k ∧ res.2.2.length = usedQs.length + k ∧
        res.2.2.Nodup ∧
        (∀ q ∈ res.2.2, q ∈ [((0 : Nat), (0 : Nat)), (0, 1), (1, 0), (1, 1)]) ∧
        BasesAligned root res.2.1 res.2.2 := by
  intro k
  induction k with
  | zero =>
    intro quads placed g bases usedQs rng res h hk hq4 hqnd hqu hund hu4 hlen halign
    rw [createBasesGo] at h
    simp only [Option.some.injEq] at h
    subst h
    exact ⟨by simp, by simp, hund, hu4, halign⟩
  | succ n ih =>
    intro quads placed g bases usedQs rng res h hk hq4 hqnd hqu hund hu4 hlen halign
    rw [createBasesGo] at h
    rcases hgo : addBaseGo root quads placed fuel rng with ⟨o, rngx⟩
    rw [hgo] at h
    cases o with
    | none => simp at h
    | some trip =>
      obtain ⟨base, q, path⟩ := trip
      have hqne : quads ≠ [] := by
        intro he
        rw [he] at hk
        simp at hk
      obtain ⟨hqm, hgood, hs1, hs2⟩ :=
        addBaseGo_good root quads placed fuel rng base q path rngx hwf h2 hqne hgo
      have herlen : (quads.erase q).length = quads.length - 1 :=
        List.length_erase_of_mem hqm
      have hres := ih (quads.erase q) (placed ++ [path]) (markBase base g)
        (bases ++ [base]) (usedQs ++ [q]) rngx res h
        (by omega)
        (fun q' hq' => hq4 q' (List.mem_of_mem_erase hq'))
        (hqnd.erase q)
        (by
          intro q' hq'
          have h1 := (hqnd.mem_erase_iff.mp hq')
          intro hmem
          rcases List.mem_append.mp hmem with hm | hm
          · exact hqu q' h1.2 hm
          · simp only [List.mem_singleton] at hm
            exact h1.1 hm)
        (by
          rw [List.nodup_append]
          exact ⟨hund, List.nodup_singleton q, by
            intro a ha hb
            simp only [List.mem_singleton] at hb
            subst hb
            exact hqu a hqm ha⟩)
        (by
          intro q' hq'
          rcases List.mem_append.mp hq' with hm | hm
          · exact hu4 q' hm
          · simp only [List.mem_singleton] at hm
            subst hm
            exact hq4 q' hqm)
        (by simp [hlen])
        (by
          intro i hi
          simp only [List.length_append, List.length_singleton] at hi
          by_cases hveq : i < bases.length
          · rw [getD_append_lt bases [base] _ i hveq,
              getD_append_lt usedQs [q] _ i (by omega)]
            exact halign i hveq
          · have hieq : i = bases.length := by omega
            subst hieq
            rw [getD_append_len bases base _]
            rw [show bases.length = usedQs.length from hlen, getD_append_len usedQs q _]
            exact ⟨hgood, hs1, hs2⟩)
      refine ⟨?_, ?_, hres.2.2.1, hres.2.2.2.1, hres.2.2.2.2⟩
      · rw [hres.1]
        simp
        omega
      · rw [hres.2.1]
        simp
        omega

/-- C6: every completed `createBases` run that places 3 bases — on a
well-formed tree with two full levels over the full 250 by 200 grid —
yields three pairwise cell-disjoint base squares, each lying strictly
inside the outer wall ring, in three pairwise distinct quadrants (each
base's leaf sits inside the rectangle reached by a distinct pair of
first-two child choices from the root). -/
theorem createBases_places_disjoint_bases (root : BTree) (g : Grid) (fuel : Nat)
    (rng : RNG) (res : Grid × List (Pos × Pos) × List (Nat × Nat)) (hwf : WF root)
    (hroot : rectOf root = ⟨0, 249, 0, 199⟩) (h2 : twoLevel root = true)
    (hrun : createBases root g fuel rng = some res) :
    res.2.1.length = 3 ∧ res.2.2.length = 3 ∧ res.2.2.Nodup ∧
      (∀ i, i < 3 → ∀ p : Pos, inBase (res.2.1.getD i ((0, 0), (0, 0))) p →
        1 ≤ p.1 ∧ p.1 ≤ 248 ∧ 1 ≤ p.2 ∧ p.2 ≤ 198) ∧
      (∀ i j, i < 3 → j < 3 → i ≠ j → ∀ p : Pos,
        ¬ (inBase (res.2.1.getD i ((0, 0), (0, 0))) p ∧
            inBase (res.2.1.getD j ((0, 0), (0, 0))) p)) ∧
      (∀ i, i < 3 → ∀ p : Pos, inBase (res.2.1.getD i ((0, 0), (0, 0))) p →
        inRectInterior (rectOf (quadTree root (res.2.2.getD i (0, 0)))) p) := by
  have hspec := createBasesGo_spec root fuel hwf h2 3 [(0, 0), (0, 1), (1, 0), (1, 1)]
    [] g [] [] rng res hrun (by norm_num) (fun q hq => hq) (by decide) (by simp)
    List.nodup_nil (by simp) rfl (by intro i hi; simp at hi)
  obtain ⟨hl1, hl2, hnd, h4, halign⟩ := hspec
  have hl1' : res.2.1.length = 3 := by simpa using hl1
  have hl2' : res.2.2.length = 3 := by simpa using hl2
  refine ⟨hl1', hl2', hnd, ?_, ?_, ?_⟩
  · intro i hi p hp
    have hg := (halign i (by omega)).1 p hp
    have hsub := quadTree_sub root (res.2.2.getD i (0, 0)) hwf h2
    have hfull := inRectInterior_mono _ _ p hsub hg
    rw [hroot] at hfull
    simp only [inRectInterior] at hfull
    omega
  · rintro i j hi hj hij p ⟨hpi, hpj⟩
    have hgi := (halign i (by omega)).1 p hpi
    have hgj := (halign j (by omega)).1 p hpj
    have hqi := h4 _ (getD_mem res.2.2 (0, 0) i (by omega))
    have hqj := h4 _ (getD_mem res.2.2 (0, 0) j (by omega))
    have hne : res.2.2.getD i (0, 0) ≠ res.2.2.getD j (0, 0) := by
      intro he
      exact hij (getD_inj res.2.2 (0, 0) hnd (by omega) (by omega) he)
    exact quad_interiors_disjoint root hwf h2 _ _ hqi hqj hne p ⟨hgi, hgj⟩
  · intro i hi p hp
    exact (halign i (by omega)).1 p hp

/-- Witness for C6: the concrete run on `rootW` from the empty world
with budget 1 and the all-zero random stream places its three bases at
((35,27),(55,47)), ((35,126),(55,146)) and ((160,27),(180,47)) in
quadrants (0,0), (0,1), (1,0). -/
theorem createBases_places_disjoint_bases_witness :
    resW.2.1.length = 3 ∧ resW.2.2.length = 3 ∧ resW.2.2.Nodup ∧
      (∀ i, i < 3 → ∀ p : Pos, inBase (resW.2.1.getD i ((0, 0), (0, 0))) p →
        1 ≤ p.1 ∧ p.1 ≤ 248 ∧ 1 ≤ p.2 ∧ p.2 ≤ 198) ∧
      (∀ i j, i < 3 → j < 3 → i ≠ j → ∀ p : Pos,
        ¬ (inBase (resW.2.1.getD i ((0, 0), (0, 0))) p ∧
            inBase (resW.2.1.getD j ((0, 0), (0, 0))) p)) ∧
      (∀ i, i < 3 → ∀ p : Pos, inBase (resW.2.1.getD i ((0, 0), (0, 0))) p →
        inRectInterior (rectOf (quadTree rootW (resW.2.2.getD i (0, 0)))) p) :=
  createBases_places_disjoint_bases rootW createEmptyWorld 1 [] resW
    (WF.vert ⟨0, 249, 0, 199⟩ 125 _ _ (by norm_num) (by norm_num) rfl rfl
      (WF.horiz ⟨0, 125, 0, 199⟩ 100 _ _ (by norm_num) (by norm_num) rfl rfl
        (WF.leaf _ (by norm_num) (by norm_num)) (WF.leaf _ (by norm_num) (by norm_num)))
      (WF.horiz ⟨125, 249, 0, 199⟩ 100 _ _ (by norm_num) (by norm_num) rfl rfl
        (WF.leaf _ (by norm_num) (by norm_num)) (WF.leaf _ (by norm_num) (by norm_num))))
    rfl rfl (by rfl)

theorem baseFoldY_apply (ys : List Nat) (x : Nat) (g : Grid) (y0 x0 : Nat) :
    (ys.foldl (fun a2 y => if 0 < x ∧ x < 249 ∧ 0 < y ∧ y < 200
        then setCell a2 y x Cell.base else a2) g) y0 x0
      = if x0 = x ∧ y0 ∈ ys ∧ 0 < x ∧ x < 249 ∧ 0 < y0 ∧ y0 < 200 then Cell.base
        else g y0 x0 := by
  induction ys generalizing g with
  | nil => simp
  | cons y ys ih =>
    rw [List.foldl_cons, ih]
    by_cases hc : x0 = x ∧ y0 ∈ ys ∧ 0 < x ∧ x < 249 ∧ 0 < y0 ∧ y0 < 200
    · rw [if_pos hc, if_pos ⟨hc.1, List.mem_cons_of_mem y hc.2.1, hc.2.2⟩]
    · rw [if_neg hc]
      by_cases hg : 0 < x ∧ x < 249 ∧ 0 < y ∧ y < 200
      · rw [if_pos hg]
        simp only [setCell]
        by_cases hhit : y0 = y ∧ x0 = x
        · rw [if_pos hhit, if_pos ⟨hhit.2, by rw [hhit.1]; exact List.mem_cons_self y ys,
            by omega⟩]
        · rw [if_neg hhit, if_neg]
          rintro ⟨hx0, hy0, hrest⟩
          rcases List.mem_cons.mp hy0 with rfl | hy0'
          · exact hhit ⟨rfl, hx0⟩
          · exact hc ⟨hx0, hy0', hrest⟩
      · rw [if_neg hg, if_neg]
        rintro ⟨hx0, hy0, hrest⟩
        rcases List.mem_cons.mp hy0 with rfl | hy0'
        · exact hg ⟨by omega, by omega, by omega, by omega⟩
        · exact hc ⟨hx0, hy0', hrest⟩

theorem baseFold2_apply (xs ys : List Nat) (g : Grid) (y0 x0 : Nat) :
    (xs.foldl (fun a x => ys.foldl (fun a2 y => if 0 < x ∧ x < 249 ∧ 0 < y ∧ y < 200
        then setCell a2 y x Cell.base else a2) a) g) y0 x0
      = if x0 ∈ xs ∧ y0 ∈ ys ∧ 0 < x0 ∧ x0 < 249 ∧ 0 < y0 ∧ y0 < 200 then Cell.base
        else g y0 x0 := by
  induction xs generalizing g with
  | nil => simp
  | cons x xs ih =>
    rw [List.foldl_cons, ih]
    by_cases hc : x0 ∈ xs ∧ y0 ∈ ys ∧ 0 < x0 ∧ x0 < 249 ∧ 0 < y0 ∧ y0 < 200
    · rw [if_pos hc, if_pos ⟨List.mem_cons_of_mem x hc.1, hc.2⟩]
    · rw [if_neg hc, baseFoldY_apply]
      by_cases hhit : x0 = x ∧ y0 ∈ ys ∧ 0 < x ∧ x < 249 ∧ 0 < y0 ∧ y0 < 200
      · rw [if_pos hhit, if_pos ⟨by rw [hhit.1]; exact List.mem_cons_self x xs,
          hhit.2.1, by omega, by omega, hhit.2.2.2.2⟩]
      · rw [if_neg hhit, if_neg]
        rintro ⟨hx0, hy0, hrest⟩
        rcases List.mem_cons.mp hx0 with rfl | hx0'
        · exact hhit ⟨rfl, hy0, hrest⟩
        · exact hc ⟨hx0', hy0, hrest⟩

theorem markBase_apply (b : Pos × Pos) (g : Grid) (y0 x0 : Nat) :
    markBase b g y0 x0
      = if b.1.1 ≤ x0 ∧ x0 ≤ b.2.1 ∧ b.1.2 ≤ y0 ∧ y0 ≤ b.2.2 ∧
            0 < x0 ∧ x0 < 249 ∧ 0 < y0 ∧ y0 < 200 then Cell.base
        else g y0 x0 := by
  rw [markBase, baseFold2_apply]
  by_cases hc : b.1.1 ≤ x0 ∧ x0 ≤ b.2.1 ∧ b.1.2 ≤ y0 ∧ y0 ≤ b.2.2 ∧
      0 < x0 ∧ x0 < 249 ∧ 0 < y0 ∧ y0 < 200
  · rw [if_pos hc, if_pos ⟨List.mem_range'_1.mpr (by omega), List.mem_range'_1.mpr (by omega),
      by omega, by omega, by omega, by omega⟩]
  · rw [if_neg hc, if_neg]
    rintro ⟨hx0, hy0, hrest⟩
    have h1 := List.mem_range'_1.mp hx0
    have h2 := List.mem_range'_1.mp hy0
    exact hc ⟨by omega, by omega, by omega, by omega, by omega, by omega, by omega, by omega⟩

/-- C7 counterexample: marking the base square with corners (10,10) and
(30,30) — the square `addBase` builds from top-left corner (10,10) —
turns 21 cells of row 10 into bases, not the 20 per axis the claim
asserts: both loops of the marking step run over inclusive ranges
`range(c, c + 20 + 1)`. -/
theorem addBase_square_20_counterexample :
    ((List.range 250).filter (fun x =>
        decide (markBase ((10, 10), (30, 30)) createEmptyWorld 10 x = Cell.base))).length
      = 21 := by
  simp only [markBase_apply]
  decide

/-- C7 (amended): every base placed by `addBase` is an axis-aligned
square defined by its top-left corner — `placeBase` always returns the
corner pair `((x, y), (x + 20, y + 20))` — and for squares inside the
outer ring the marking loop sets exactly the cells of the inclusive
21-by-21 square to base: 21 cells per axis and 441 grid cells in total,
not 20 per axis and 400 in total as claimed. -/
theorem markBase_square (x1 y1 : Nat) (g : Grid)
    (hx1 : 1 ≤ x1) (hx2 : x1 + 20 ≤ 248) (hy1 : 1 ≤ y1) (hy2 : y1 + 20 ≤ 198) :
    (∀ rect rng, ((placeBase rect rng).1).2
        = (((placeBase rect rng).1).1.1 + 20, ((placeBase rect rng).1).1.2 + 20)) ∧
    (∀ y x, markBase ((x1, y1), (x1 + 20, y1 + 20)) g y x
        = if x1 ≤ x ∧ x ≤ x1 + 20 ∧ y1 ≤ y ∧ y ≤ y1 + 20 then Cell.base else g y x) ∧
    (Finset.Icc x1 (x1 + 20)).card = 21 ∧ (Finset.Icc y1 (y1 + 20)).card = 21 ∧
    (Finset.Icc x1 (x1 + 20) ×ˢ Finset.Icc y1 (y1 + 20)).card = 441 := by
  refine ⟨fun rect rng => rfl, fun y x => ?_, ?_, ?_, ?_⟩
  · rw [markBase_apply]
    by_cases hc : x1 ≤ x ∧ x ≤ x1 + 20 ∧ y1 ≤ y ∧ y ≤ y1 + 20
    · rw [if_pos hc, if_pos ⟨hc.1, hc.2.1, hc.2.2.1, hc.2.2.2,
        by omega, by omega, by omega, by omega⟩]
    · rw [if_neg hc, if_neg]
      rintro ⟨h1, h2, h3, h4, _⟩
      exact hc ⟨h1, h2, h3, h4⟩
  · rw [Nat.card_Icc]; omega
  · rw [Nat.card_Icc]; omega
  · rw [Finset.card_product, Nat.card_Icc, Nat.card_Icc,
      show x1 + 20 + 1 - x1 = 21 from by omega, show y1 + 20 + 1 - y1 = 21 from by omega]

/-- Witness for C7's amended theorem at the concrete corner (10,10) on
the empty world. -/
theorem markBase_square_witness :
    (∀ rect rng, ((placeBase rect rng).1).2
        = (((placeBase rect rng).1).1.1 + 20, ((placeBase rect rng).1).1.2 + 20)) ∧
    (∀ y x, markBase ((10, 10), (10 + 20, 10 + 20)) createEmptyWorld y x
        = if 10 ≤ x ∧ x ≤ 10 + 20 ∧ 10 ≤ y ∧ y ≤ 10 + 20 then Cell.base
          else createEmptyWorld y x) ∧
    (Finset.Icc 10 (10 + 20)).card = 21 ∧ (Finset.Icc 10 (10 + 20)).card = 21 ∧
    (Finset.Icc 10 (10 + 20) ×ˢ Finset.Icc 10 (10 + 20)).card = 441 :=
  markBase_square 10 10 createEmptyWorld (by decide) (by decide) (by decide) (by decide)

theorem getD_append_right {α : Type} (l1 l2 : List α) (d : α) (i : Nat) :
    (l1 ++ l2).getD (l1.length + i) d = l2.getD i d := by
  induction l1 with
  | nil => simp
  | cons a l ih => simpa [Nat.succ_add] using ih

theorem partsAux_slice (unusable : List Pos) :
    ∀ (l cur : List Pos) (p : List Pos), p ∈ partsAux unusable l cur →
      sliceOf p (cur ++ l) := by
  intro l
  induction l with
  | nil =>
    intro cur p hp
    rw [partsAux] at hp
    by_cases hc : cur = []
    · rw [if_pos hc] at hp
      simp at hp
    · rw [if_neg hc] at hp
      simp only [List.mem_singleton] at hp
      subst hp
      exact ⟨[], [], by simp⟩
  | cons q rest ih =>
    intro cur p hp
    rw [partsAux] at hp
    by_cases hq : q ∈ unusable
    · rw [if_pos hq] at hp
      by_cases hc : cur = []
      · rw [if_pos hc] at hp
        obtain ⟨s, t, hst⟩ := ih [] p hp
        simp only [List.nil_append] at hst
        exact ⟨cur ++ [q] ++ s, t, by simp [hst]⟩
      · rw [if_neg hc] at hp
        rcases List.mem_cons.mp hp with rfl | hp'
        · exact ⟨[], q :: rest, by simp⟩
        · obtain ⟨s, t, hst⟩ := ih [] p hp'
          simp only [List.nil_append] at hst
          exact ⟨cur ++ [q] ++ s, t, by simp [hst]⟩
    · rw [if_neg hq] at hp
      obtain ⟨s, t, hst⟩ := ih (cur ++ [q]) p hp
      refine ⟨s, t, ?_⟩
      rw [show cur ++ q :: rest = (cur ++ [q]) ++ rest by simp]
      exact hst

theorem wallPartsOf_slice (wall unusable : List Pos) (p : List Pos)
    (hp : p ∈ wallPartsOf wall unusable) : sliceOf p wall := by
  have h := partsAux_slice unusable wall [] p hp
  simpa [sliceOf] using h

theorem slice_interior_index (p wall : List Pos) (hs : sliceOf p wall) (j : Nat)
    (hj1 : 1 ≤ j) (hj2 : j + 2 ≤ p.length) :
    ∃ i, 1 ≤ i ∧ i + 2 ≤ wall.length ∧ wall.getD i (0, 0) = p.getD j (0, 0) := by
  obtain ⟨s, t, hst⟩ := hs
  refine ⟨s.length + j, by omega, ?_, ?_⟩
  · rw [hst]
    simp only [List.length_append]
    omega
  · rw [hst, List.append_assoc, getD_append_right, getD_append_lt p t _ j (by omega)]

theorem GoodWall_interior_not_border (wall : List Pos) (hgw : GoodWall wall) (i : Nat)
    (hi1 : 1 ≤ i) (hi2 : i + 2 ≤ wall.length) :
    ¬ ((wall.getD i (0, 0)).2 = 0 ∨ (wall.getD i (0, 0)).2 = 199 ∨
        (wall.getD i (0, 0)).1 = 0 ∨ (wall.getD i (0, 0)).1 = 249) := by
  intro hb
  obtain ⟨hnd, hends⟩ := hgw
  have hne : wall ≠ [] := by
    intro h
    rw [h] at hi2
    simp at hi2
  have hmem : wall.getD i (0, 0) ∈ wall := getD_mem wall (0, 0) i (by omega)
  rcases hends _ hmem hb with hh | hl
  · rw [headD_eq_getD wall (0, 0) hne] at hh
    have := getD_inj wall (0, 0) hnd (by omega) (by omega) hh
    omega
  · rw [getLastD_eq_getD wall (0, 0)] at hl
    have := getD_inj wall (0, 0) hnd (by omega) (by omega) hl
    omega

theorem chanceFold_changes (LP : List (List Pos)) (w1 : Nat) (y x : Nat) :
    ∀ (I : List Nat) (st : Grid × RNG),
      ((I.foldl (fun (st : Grid × RNG) i =>
          let c := randint 0 2 st.2
          if c.1 = 0 ∧ i ≠ w1 then openDoor (LP.getD i []) st.1 c.2
          else (st.1, c.2)) st).1) y x = st.1 y x ∨
        ∃ i ∈ I, ∃ j, 1 ≤ j ∧ j + 2 ≤ (LP.getD i []).length ∧
          (LP.getD i []).getD j (0, 0) = (x, y) := by
  intro I
  induction I with
  | nil =>
    intro st
    exact Or.inl rfl
  | cons i I ih =>
    intro st
    rw [List.foldl_cons]
    show (I.foldl (fun (st : Grid × RNG) i =>
        let c := randint 0 2 st.2
        if c.1 = 0 ∧ i ≠ w1 then openDoor (LP.getD i []) st.1 c.2
        else (st.1, c.2))
        (if (randint 0 2 st.2).1 = 0 ∧ i ≠ w1
          then openDoor (LP.getD i []) st.1 (randint 0 2 st.2).2
          else (st.1, (randint 0 2 st.2).2))).1 y x = st.1 y x ∨ _
    rcases ih (if (randint 0 2 st.2).1 = 0 ∧ i ≠ w1
        then openDoor (LP.getD i []) st.1 (randint 0 2 st.2).2
        else (st.1, (randint 0 2 st.2).2)) with h1 | ⟨i', hi', hj⟩
    · by_cases hc : (randint 0 2 st.2).1 = 0 ∧ i ≠ w1
      · rw [if_pos hc] at h1 ⊢
        rcases openDoor_changes (LP.getD i []) st.1 (randint 0 2 st.2).2 y x with
          hsame | ⟨_, j, _, hj1, hj2, heqj⟩
        · exact Or.inl (h1.trans hsame)
        · exact Or.inr ⟨i, List.mem_cons_self i I, j, hj1, hj2, heqj⟩
      · rw [if_neg hc] at h1 ⊢
        exact Or.inl h1
    · exact Or.inr ⟨i', List.mem_cons_of_mem i hi', hj⟩

theorem addDoorToWall_changes (wall unusable : List Pos) (g : Grid) (rng : RNG)
    (y x : Nat) (hne : (addDoorToWall wall unusable g rng).1 y x ≠ g y x) :
    ∃ i, 1 ≤ i ∧ i + 2 ≤ wall.length ∧ wall.getD i (0, 0) = (x, y) := by
  set LP := (wallPartsOf wall unusable).filter (fun p => 15 ≤ p.length) with hLP
  by_cases hl : 0 < LP.length
  · have hr := randint_bounds 0 (LP.length - 1) rng (Nat.zero_le _)
    have hw1 : (randint 0 (LP.length - 1) rng).1 < LP.length := by omega
    set part := LP.getD (randint 0 (LP.length - 1) rng).1 [] with hpart
    have hmemLP : part ∈ LP := by
      rw [hpart]
      exact getD_mem LP [] _ hw1
    have hmemF : part ∈ (wallPartsOf wall unusable).filter (fun p => 15 ≤ p.length) := by
      rw [← hLP]
      exact hmemLP
    have hmemParts : part ∈ wallPartsOf wall unusable := (List.mem_filter.mp hmemF).1
    have hl' : 0 < ((wallPartsOf wall unusable).filter (fun p => 15 ≤ p.length)).length := by
      rw [← hLP]
      exact hl
    have heq : addDoorToWall wall unusable g rng
        = doorChanceLoop LP (randint 0 (LP.length - 1) rng).1
            (openDoor part g (randint 0 (LP.length - 1) rng).2).1
            (openDoor part g (randint 0 (LP.length - 1) rng).2).2 := by
      rw [hpart, hLP]
      simp only [addDoorToWall]
      rw [if_pos hl']
    rw [heq, doorChanceLoop] at hne
    rcases chanceFold_changes LP (randint 0 (LP.length - 1) rng).1 y x
        (List.range LP.length)
        ((openDoor part g (randint 0 (LP.length - 1) rng).2).1,
          (openDoor part g (randint 0 (LP.length - 1) rng).2).2) with h1 | ⟨i, hiI, j, hj1, hj2, heqj⟩
    · rw [h1] at hne
      rcases openDoor_changes part g (randint 0 (LP.length - 1) rng).2 y x with
        hsame | ⟨_, j, _, hj1, hj2, heqj⟩
      · exact absurd hsame hne
      · obtain ⟨i', hi'1, hi'2, heq'⟩ := slice_interior_index part wall
          (wallPartsOf_slice wall unusable part hmemParts) j hj1 hj2
        exact ⟨i', hi'1, hi'2, heq'.trans heqj⟩
    · have hilt : i < LP.length := List.mem_range.mp hiI
      have hmem : LP.getD i [] ∈ LP := getD_mem LP [] i hilt
      have hmemParts' : LP.getD i [] ∈ wallPartsOf wall unusable := by
        rw [hLP] at hmem
        exact (List.mem_filter.mp hmem).1
      obtain ⟨i', hi'1, hi'2, heq'⟩ := slice_interior_index (LP.getD i []) wall
        (wallPartsOf_slice wall unusable _ hmemParts') j hj1 hj2
      exact ⟨i', hi'1, hi'2, heq'.trans heqj⟩
  · by_cases hpe : wallPartsOf wall unusable = []
    · have heq : addDoorToWall wall unusable g rng = (g, rng) := by
        simp only [addDoorToWall]
        rw [← hLP, if_neg hl, hpe]
        rfl
      rw [heq] at hne
      exact absurd rfl hne
    · have spec := selectLoop_spec (wallPartsOf wall unusable) hpe
      have hsel : (selectLoop (wallPartsOf wall unusable)).2 ≠ -1 := by omega
      have heq : addDoorToWall wall unusable g rng
          = openDoor ((wallPartsOf wall unusable).getD
              (selectLoop (wallPartsOf wall unusable)).2.toNat []) g rng := by
        simp only [addDoorToWall]
        rw [← hLP, if_neg hl, if_pos hsel]
      rw [heq] at hne
      rcases openDoor_changes ((wallPartsOf wall unusable).getD
          (selectLoop (wallPartsOf wall unusable)).2.toNat []) g rng y x with
        hsame | ⟨_, j, _, hj1, hj2, heqj⟩
      · exact absurd hsame hne
      · have hmemParts := getD_mem (wallPartsOf wall unusable) [] _ spec.2.1
        obtain ⟨i', hi'1, hi'2, heq'⟩ := slice_interior_index _ wall
          (wallPartsOf_slice wall unusable _ hmemParts) j hj1 hj2
        exact ⟨i', hi'1, hi'2, heq'.trans heqj⟩

theorem addDoorToWall_border (wall unusable : List Pos) (g : Grid) (rng : RNG)
    (hgw : GoodWall wall) (hbw : borderWall g) :
    borderWall (addDoorToWall wall unusable g rng).1 := by
  intro x hx y hy hring
  by_cases hch : (addDoorToWall wall unusable g rng).1 y x = g y x
  · rw [hch]
    exact hbw x hx y hy hring
  · exfalso
    obtain ⟨i, hi1, hi2, heq⟩ := addDoorToWall_changes wall unusable g rng y x hch
    refine GoodWall_interior_not_border wall hgw i hi1 hi2 ?_
    rw [heq]
    exact hring

theorem addDoors_border (t : NTree) : ∀ (g : Grid) (rng : RNG), GoodTree t →
    borderWall g → borderWall (addDoors t g rng).1 := by
  induction t with
  | leaf =>
    intro g rng _ hb
    exact hb
  | node w u l r ihl ihr =>
    intro g rng hgt hb
    obtain ⟨hgw, hgl, hgr⟩ := hgt
    simp only [addDoors]
    exact addDoorToWall_border w u _ _ hgw (ihr _ _ hgr (ihl _ _ hgl hb))

theorem createEmptyWorld_border : borderWall createEmptyWorld := by
  intro x hx y hy hring
  simp only [createEmptyWorld]
  rw [if_pos hring]

theorem wallFold_apply {α : Type} (l : List α) (fy fx : α → Nat) (g : Grid) (y x : Nat) :
    (l.foldl (fun a p => setCell a (fy p) (fx p) Cell.wall) g) y x = g y x ∨
      (l.foldl (fun a p => setCell a (fy p) (fx p) Cell.wall) g) y x = Cell.wall := by
  induction l generalizing g with
  | nil => exact Or.inl rfl
  | cons p l ih =>
    rw [List.foldl_cons]
    rcases ih (setCell g (fy p) (fx p) Cell.wall) with h | h
    · rw [h]
      simp only [setCell]
      by_cases hc : y = fy p ∧ x = fx p
      · rw [if_pos hc]
        exact Or.inr rfl
      · rw [if_neg hc]
        exact Or.inl rfl
    · exact Or.inr h

theorem carveWall_border (direction r xMin xMax yMin yMax : Nat) (g : Grid)
    (hb : borderWall g) : borderWall (carveWall direction r xMin xMax yMin yMax g) := by
  intro x hx y hy hring
  rw [carveWall]
  by_cases hd : direction = 0
  · rw [if_pos hd]
    rcases wallFold_apply (List.range' xMin (xMax + 1 - xMin)) (fun _ => r) (fun p => p)
        g y x with h | h
    · rw [h]
      exact hb x hx y hy hring
    · exact h
  · rw [if_neg hd]
    rcases wallFold_apply (List.range' yMin (yMax + 1 - yMin)) (fun p => p) (fun _ => r)
        g y x with h | h
    · rw [h]
      exact hb x hx y hy hring
    · exact h

theorem markBase_border (b : Pos × Pos) (g : Grid) (hby : b.2.2 ≤ 198)
    (hb : borderWall g) : borderWall (markBase b g) := by
  intro x hx y hy hring
  rw [markBase_apply, if_neg]
  · exact hb x hx y hy hring
  · rintro ⟨_, _, _, h4, h5, h6, h7, h8⟩
    omega

theorem createBasesGo_border (root : BTree) (fuel : Nat) (hwf : WF root)
    (hroot : rectOf root = ⟨0, 249, 0, 199⟩) (h2 : twoLevel root = true) :
    ∀ (k : Nat) (quads : List (Nat × Nat)) (placed : List (List Nat)) (g : Grid)
      (bases : List (Pos × Pos)) (usedQs : List (Nat × Nat)) (rng : RNG)
      (res : Grid × List (Pos × Pos) × List (Nat × Nat)),
      createBasesGo root fuel k quads placed g bases usedQs rng = some res →
      k ≤ quads.length → borderWall g → borderWall res.1 := by
  intro k
  induction k with
  | zero =>
    intro quads placed g bases usedQs rng res h hk hb
    rw [createBasesGo] at h
    simp only [Option.some.injEq] at h
    subst h
    exact hb
  | succ n ih =>
    intro quads placed g bases usedQs rng res h hk hb
    rw [createBasesGo] at h
    rcases hgo : addBaseGo root quads placed fuel rng with ⟨o, rngx⟩
    rw [hgo] at h
    cases o with
    | none => simp at h
    | some trip =>
      obtain ⟨base, q, path⟩ := trip
      have hqne : quads ≠ [] := by
        intro he
        rw [he] at hk
        simp at hk
      obtain ⟨hqm, hgood, hs1, hs2⟩ :=
        addBaseGo_good root quads placed fuel rng base q path rngx hwf h2 hqne hgo
      have herlen : (quads.erase q).length = quads.length - 1 :=
        List.length_erase_of_mem hqm
      have hp : inBase base (base.1.1, base.2.2) := by
        simp only [inBase]
        omega
      have hint := hgood _ hp
      have hsub := quadTree_sub root q hwf h2
      have hfull := inRectInterior_mono _ _ _ hsub hint
      rw [hroot] at hfull
      simp only [inRectInterior] at hfull
      exact ih (quads.erase q) (placed ++ [path]) (markBase base g) (bases ++ [base])
        (usedQs ++ [q]) rngx res h (by omega)
        (markBase_border base g (by omega) hb)

/-- C8: the outer wall ring is intact at every stage of a generation
run.  The freshly created world has a full border ring; carving a split
wall writes only wall cells anywhere, so it keeps the ring; `addDoors`
keeps the ring on every tree whose walls are duplicate-free and meet the
border only at their two endpoints (the shape `splitNode` carves), since
doors are only ever cut at interior wall indices; and a completed
`createBases` run on a well-formed two-level tree over the full grid
keeps the ring, because each placed base lies strictly inside its
quadrant rectangle and the marking loop's own guard stops every other
out-of-ring write. -/
theorem border_ring_always_wall :
    borderWall createEmptyWorld ∧
    (∀ (direction r xMin xMax yMin yMax : Nat) (g : Grid), borderWall g →
        borderWall (carveWall direction r xMin xMax yMin yMax g)) ∧
    (∀ (t : NTree) (g : Grid) (rng : RNG), GoodTree t → borderWall g →
        borderWall (addDoors t g rng).1) ∧
    (∀ (root : BTree) (g : Grid) (fuel : Nat) (rng : RNG)
        (res : Grid × List (Pos × Pos) × List (Nat × Nat)), WF root →
        rectOf root = ⟨0, 249, 0, 199⟩ → twoLevel root = true →
        createBases root g fuel rng = some res → borderWall g → borderWall res.1) := by
  refine ⟨createEmptyWorld_border, carveWall_border, addDoors_border, ?_⟩
  intro root g fuel rng res hwf hroot h2 hrun hb
  exact createBasesGo_border root fuel hwf hroot h2 3 [(0, 0), (0, 1), (1, 0), (1, 1)]
    [] g [] [] rng res hrun (by norm_num) hb

/-- Witness for C8 at border cell (5, 0) — row 0 — through all four
stages: the fresh world, a carved split wall across the full grid, the
doored tree `T8`, and the completed base run on `rootW`. -/
theorem border_ring_always_wall_witness :
    createEmptyWorld 0 5 = Cell.wall ∧
    carveWall 0 100 0 249 0 199 createEmptyWorld 0 5 = Cell.wall ∧
    (addDoors T8 createEmptyWorld []).1 0 5 = Cell.wall ∧
    resW.1 0 5 = Cell.wall :=
  ⟨border_ring_always_wall.1 5 (by norm_num) 0 (by norm_num) (Or.inl rfl),
    border_ring_always_wall.2.1 0 100 0 249 0 199 createEmptyWorld
      border_ring_always_wall.1 5 (by norm_num) 0 (by norm_num) (Or.inl rfl),
    border_ring_always_wall.2.2.1 T8 createEmptyWorld []
      ⟨⟨by decide, by decide⟩, trivial, trivial⟩
      border_ring_always_wall.1 5 (by norm_num) 0 (by norm_num) (Or.inl rfl),
    border_ring_always_wall.2.2.2 rootW createEmptyWorld 1 [] resW
      (WF.vert ⟨0, 249, 0, 199⟩ 125 _ _ (by norm_num) (by norm_num) rfl rfl
        (WF.horiz ⟨0, 125, 0, 199⟩ 100 _ _ (by norm_num) (by norm_num) rfl rfl
          (WF.leaf _ (by norm_num) (by norm_num)) (WF.leaf _ (by norm_num) (by norm_num)))
        (WF.horiz ⟨125, 249, 0, 199⟩ 100 _ _ (by norm_num) (by norm_num) rfl rfl
          (WF.leaf _ (by norm_num) (by norm_num)) (WF.leaf _ (by norm_num) (by norm_num))))
      rfl rfl (by rfl) border_ring_always_wall.1 5 (by norm_num) 0 (by norm_num)
      (Or.inl rfl)⟩

theorem hseg_length (r a n : Nat) : (hseg r a n).length = n := by
  simp [hseg]

theorem vseg_length (c a n : Nat) : (vseg c a n).length = n := by
  simp [vseg]

theorem mem_hseg (r a n qx qy : Nat) :
    (qx, qy) ∈ hseg r a n ↔ a ≤ qx ∧ qx < a + n ∧ qy = r := by
  simp only [hseg, List.mem_map, List.mem_range'_1, Prod.mk.injEq]
  constructor
  · rintro ⟨t, ⟨ht1, ht2⟩, rfl, rfl⟩
    exact ⟨ht1, ht2, rfl⟩
  · rintro ⟨h1, h2, rfl⟩
    exact ⟨qx, ⟨h1, h2⟩, rfl, rfl⟩

theorem mem_vseg (c a n qx qy : Nat) :
    (qx, qy) ∈ vseg c a n ↔ a ≤ qy ∧ qy < a + n ∧ qx = c := by
  simp only [vseg, List.mem_map, List.mem_range'_1, Prod.mk.injEq]
  constructor
  · rintro ⟨t, ⟨ht1, ht2⟩, rfl, rfl⟩
    exact ⟨ht1, ht2, rfl⟩
  · rintro ⟨h1, h2, rfl⟩
    exact ⟨qy, ⟨h1, h2⟩, rfl, rfl⟩

theorem hseg_nodup (r a n : Nat) : (hseg r a n).Nodup := by
  refine List.Nodup.map ?_ (List.nodup_range' _ _)
  intro x y h
  simpa using h

theorem vseg_nodup (c a n : Nat) : (vseg c a n).Nodup := by
  refine List.Nodup.map ?_ (List.nodup_range' _ _)
  intro x y h
  simpa using h

theorem hseg_headD (r a n : Nat) (h : 0 < n) : (hseg r a n).headD (0, 0) = (a, r) := by
  cases n with
  | zero => omega
  | succ m =>
    rw [hseg, List.range'_succ]
    rfl

theorem vseg_headD (c a n : Nat) (h : 0 < n) : (vseg c a n).headD (0, 0) = (c, a) := by
  cases n with
  | zero => omega
  | succ m =>
    rw [vseg, List.range'_succ]
    rfl

theorem hseg_getD (r a n j : Nat) (h : j < n) : (hseg r a n).getD j (0, 0) = (a + j, r) := by
  rw [List.getD_eq_getElem _ _ (by rw [hseg_length]; omega)]
  simp [hseg]

theorem vseg_getD (c a n j : Nat) (h : j < n) : (vseg c a n).getD j (0, 0) = (c, a + j) := by
  rw [List.getD_eq_getElem _ _ (by rw [vseg_length]; omega)]
  simp [vseg]

theorem hseg_getLastD (r a n : Nat) (h : 0 < n) :
    (hseg r a n).getLastD (0, 0) = (a + (n - 1), r) := by
  rw [getLastD_eq_getD, hseg_length, hseg_getD r a n _ (by omega)]

theorem vseg_getLastD (c a n : Nat) (h : 0 < n) :
    (vseg c a n).getLastD (0, 0) = (c, a + (n - 1)) := by
  rw [getLastD_eq_getD, vseg_length, vseg_getD c a n _ (by omega)]

theorem hseg_tail (r a n : Nat) : (hseg r a n).tail = hseg r (a + 1) (n - 1) := by
  cases n with
  | zero => rfl
  | succ m =>
    rw [hseg, List.range'_succ]
    rfl

theorem vseg_tail (c a n : Nat) : (vseg c a n).tail = vseg c (a + 1) (n - 1) := by
  cases n with
  | zero => rfl
  | succ m =>
    rw [vseg, List.range'_succ]
    rfl

theorem hseg_dropLast (r a n : Nat) : (hseg r a n).dropLast = hseg r a (n - 1) := by
  cases n with
  | zero => rfl
  | succ m =>
    rw [hseg, List.range'_concat, List.map_append, List.map_singleton, List.dropLast_concat]
    rfl

theorem vseg_dropLast (c a n : Nat) : (vseg c a n).dropLast = vseg c a (n - 1) := by
  cases n with
  | zero => rfl
  | succ m =>
    rw [vseg, List.range'_concat, List.map_append, List.map_singleton, List.dropLast_concat]
    rfl

theorem IsSeg_nodup (p : List Pos) (h : IsSeg p) : p.Nodup := by
  rcases h with ⟨r, a, n, rfl⟩ | ⟨c, a, n, rfl⟩
  · exact hseg_nodup r a n
  · exact vseg_nodup c a n

theorem IsSeg_tail (p : List Pos) (h : IsSeg p) : IsSeg p.tail := by
  rcases h with ⟨r, a, n, rfl⟩ | ⟨c, a, n, rfl⟩
  · exact Or.inl ⟨r, a + 1, n - 1, hseg_tail r a n⟩
  · exact Or.inr ⟨c, a + 1, n - 1, vseg_tail c a n⟩

theorem IsSeg_dropLast (p : List Pos) (h : IsSeg p) : IsSeg p.dropLast := by
  rcases h with ⟨r, a, n, rfl⟩ | ⟨c, a, n, rfl⟩
  · exact Or.inl ⟨r, a, n - 1, hseg_dropLast r a n⟩
  · exact Or.inr ⟨c, a, n - 1, vseg_dropLast c a n⟩

theorem IsSeg_span_mem (p : List Pos) (h : IsSeg p) (hne : 0 < p.length) (qx qy : Nat) :
    inSpan (p.headD (0, 0), p.getLastD (0, 0)) (qx, qy) ↔ (qx, qy) ∈ p := by
  rcases h with ⟨r, a, n, rfl⟩ | ⟨c, a, n, rfl⟩
  · rw [hseg_length] at hne
    rw [hseg_headD r a n hne, hseg_getLastD r a n hne, mem_hseg]
    dsimp only [inSpan]
    constructor
    · intro hs
      exact ⟨by omega, by omega, by omega⟩
    · rintro ⟨h1, h2, h3⟩
      exact ⟨by omega, by omega, by omega, by omega⟩
  · rw [vseg_length] at hne
    rw [vseg_headD c a n hne, vseg_getLastD c a n hne, mem_vseg]
    dsimp only [inSpan]
    constructor
    · intro hs
      exact ⟨by omega, by omega, by omega⟩
    · rintro ⟨h1, h2, h3⟩
      exact ⟨by omega, by omega, by omega, by omega⟩

theorem removeUsedGo_clean (used : List Pos) :
    ∀ (fuel i : Nat) (part : List Pos), (∀ c ∈ part, c ∉ used) →
      removeUsedGo used fuel i part = part := by
  intro fuel
  induction fuel with
  | zero =>
    intro i part h
    rfl
  | succ n ih =>
    intro i part h
    by_cases hi : i < part.length
    · rw [removeUsedGo_step_not_mem used n i part hi (h _ (part.get_mem i hi))]
      exact ih (i + 1) part h
    · exact removeUsedGo_stop used n i part hi

theorem removeUsedGo_last (used : List Pos) (l : Pos) (hl : l ∈ used) :
    ∀ (fuel i : Nat) (init : List Pos), (∀ c ∈ init, c ∉ used) → l ∉ init →
      i ≤ init.length → init.length < i + fuel →
      removeUsedGo used fuel i (init ++ [l]) = init := by
  intro fuel
  induction fuel with
  | zero =>
    intro i init _ _ h1 h2
    omega
  | succ n ih =>
    intro i init hclean hnm h1 h2
    by_cases hi : i < init.length
    · have hlen : i < (init ++ [l]).length := by
        simp only [List.length_append, List.length_singleton]
        omega
      have hget : (init ++ [l]).get ⟨i, hlen⟩ ∈ init := by
        rw [List.get_eq_getElem, List.getElem_append_left hi]
        exact List.getElem_mem _
      rw [removeUsedGo_step_not_mem used n i _ hlen (fun hmem => hclean _ hget hmem)]
      exact ih (i + 1) init hclean hnm (by omega) (by omega)
    · have hieq : i = init.length := by omega
      subst hieq
      have hlen : init.length < (init ++ [l]).length := by
        simp only [List.length_append, List.length_singleton]
        omega
      have hget : (init ++ [l]).get ⟨init.length, hlen⟩ = l := by
        rw [List.get_eq_getElem, List.getElem_append_right (le_refl _)]
        simp
      rw [removeUsedGo_step_mem used n init.length _ hlen (by rw [hget]; exact hl)]
      rw [hget, List.erase_append_right _ hnm, List.erase_cons_head, List.append_nil]
      cases n with
      | zero => rfl
      | succ m => exact removeUsedGo_stop used m (init.length + 1) init (by omega)

theorem getLastD_irrel {α : Type} (l : List α) (d d' : α) (h : l ≠ []) :
    l.getLastD d = l.getLastD d' := by
  rw [List.getLastD_eq_getLast?, List.getLastD_eq_getLast?,
    List.getLast?_eq_getLast l h]
  rfl

theorem dropLast_append_getLastD {α : Type} (l : List α) (d : α) (h : l ≠ []) :
    l.dropLast ++ [l.getLastD d] = l := by
  have hld : l.getLastD d = l.getLast h := by
    rw [List.getLastD_eq_getLast?, List.getLast?_eq_getLast l h]
    rfl
  rw [hld, List.dropLast_append_getLast]

theorem removeUsedLoop_cases (U p : List Pos) (hnd : p.Nodup)
    (hE : ∀ c ∈ p, c ∈ U → c = p.headD (0, 0) ∨ c = p.getLastD (0, 0))
    (hA : ¬(p.length = 2 ∧ p.headD (0, 0) ∈ U ∧ p.getLastD (0, 0) ∈ U)) :
    (removeUsedLoop U p = p ∨ removeUsedLoop U p = p.tail ∨
      removeUsedLoop U p = p.dropLast ∨ removeUsedLoop U p = p.tail.dropLast) ∧
    (∀ c ∈ removeUsedLoop U p, c ∉ U) ∧ (∀ c ∈ removeUsedLoop U p, c ∈ p) := by
  rcases p with _ | ⟨h, rest⟩
  · exact ⟨Or.inl rfl, by simp [removeUsedLoop, removeUsedGo], by simp [removeUsedLoop, removeUsedGo]⟩
  simp only [List.headD_cons] at hE hA
  by_cases hh : h ∈ U
  · by_cases hl : (h :: rest).getLastD (0, 0) ∈ U
    · -- both ends used
      rcases rest with _ | ⟨b, rest2⟩
      · -- p = [h]
        have heq : removeUsedLoop U [h] = [] := by
          rw [removeUsedLoop]
          rw [show ([h] : List Pos).length = 0 + 1 from rfl]
          rw [removeUsedGo_step_mem U 0 0 [h] (by simp) hh]
          rw [show ([h].get ⟨0, by simp⟩) = h from rfl, List.erase_cons_head]
          rfl
        rw [heq]
        exact ⟨Or.inr (Or.inl rfl), by simp, by simp⟩
      rcases rest2 with _ | ⟨c2, rest3⟩
      · -- p = [h, b]: excluded by hA
        exact absurd ⟨rfl, hh, hl⟩ hA
      · -- length ≥ 3
        set rest := b :: c2 :: rest3 with hrest
        have hrne : rest ≠ [] := by
          rw [hrest]
          exact List.cons_ne_nil _ _
        have hLr : (h :: rest).getLastD (0, 0) = rest.getLastD (0, 0) := by
          rw [List.getLastD_cons]
          exact getLastD_irrel rest h (0, 0) hrne
        have hl' : rest.getLastD (0, 0) ∈ U := by
          rw [← hLr]
          exact hl
        have hdecr : rest.dropLast ++ [rest.getLastD (0, 0)] = rest :=
          dropLast_append_getLastD rest _ hrne
        have hndr : rest.Nodup := (List.nodup_cons.mp hnd).2
        have hhr : h ∉ rest := (List.nodup_cons.mp hnd).1
        have hLnm : rest.getLastD (0, 0) ∉ rest.dropLast := by
          have hx := hndr
          rw [← hdecr] at hx
          rcases List.nodup_append.mp hx with ⟨_, _, hdisj⟩
          intro hmem
          exact hdisj hmem (by simp)
        have hmid : ∀ c ∈ rest.dropLast, c ∉ U := by
          intro c hc hcu
          have hcr : c ∈ rest := by
            rw [← hdecr]
            exact List.mem_append_left _ hc
          rcases hE c (List.mem_cons_of_mem h hcr) hcu with rfl | hcl
          · exact hhr hcr
          · rw [hLr] at hcl
            rw [hcl] at hc
            exact hLnm hc
        have hdl : rest.dropLast.length = rest.length - 1 := List.length_dropLast rest
        have hrl : 3 ≤ (h :: rest).length := by
          rw [hrest]
          simp
        have heq : removeUsedLoop U (h :: rest) = rest.dropLast := by
          rw [removeUsedLoop, List.length_cons]
          rw [removeUsedGo_step_mem U rest.length 0 (h :: rest) (by simp) hh]
          rw [show ((h :: rest).get ⟨0, by simp⟩) = h from rfl, List.erase_cons_head]
          have hgo := removeUsedGo_last U (rest.getLastD (0, 0)) hl' rest.length 1
            rest.dropLast hmid hLnm
            (by simp only [List.length_cons] at hrl; omega)
            (by omega)
          rw [hdecr] at hgo
          exact hgo
        rw [heq]
        refine ⟨Or.inr (Or.inr (Or.inr rfl)), hmid, ?_⟩
        intro c hc
        refine List.mem_cons_of_mem h ?_
        rw [← hdecr]
        exact List.mem_append_left _ hc
    · -- only the head is used
      have hnin : h ∉ rest := (List.nodup_cons.mp hnd).1
      have hrest : ∀ c ∈ rest, c ∉ U := by
        intro c hc hcu
        rcases hE c (List.mem_cons_of_mem h hc) hcu with rfl | rfl
        · exact hnin hc
        · exact hl hcu
      have heq : removeUsedLoop U (h :: rest) = rest := by
        rw [removeUsedLoop, List.length_cons]
        rw [removeUsedGo_step_mem U rest.length 0 (h :: rest) (by simp) hh]
        rw [show ((h :: rest).get ⟨0, by simp⟩) = h from rfl, List.erase_cons_head]
        exact removeUsedGo_clean U rest.length 1 rest hrest
      rw [heq]
      exact ⟨Or.inr (Or.inl rfl), hrest, fun c hc => List.mem_cons_of_mem h hc⟩
  · by_cases hl : (h :: rest).getLastD (0, 0) ∈ U
    · -- only the last is used
      have hne : (h :: rest) ≠ [] := List.cons_ne_nil h rest
      have hdec : (h :: rest).dropLast ++ [(h :: rest).getLastD (0, 0)] = h :: rest :=
        dropLast_append_getLastD _ _ hne
      have hndL : (h :: rest).getLastD (0, 0) ∉ (h :: rest).dropLast := by
        have hx := hnd
        rw [← hdec] at hx
        rcases List.nodup_append.mp hx with ⟨_, _, hdisj⟩
        intro hmem
        exact hdisj hmem (by simp)
      have hinit : ∀ c ∈ (h :: rest).dropLast, c ∉ U := by
        intro c hc hcu
        have hcp : c ∈ h :: rest := by
          rw [← hdec]
          exact List.mem_append_left _ hc
        rcases hE c hcp hcu with rfl | rfl
        · exact hh hcu
        · exact hndL hc
      have heq : removeUsedLoop U (h :: rest) = (h :: rest).dropLast := by
        rw [removeUsedLoop]
        have hgo := removeUsedGo_last U ((h :: rest).getLastD (0, 0)) hl
          (h :: rest).length 0 (h :: rest).dropLast hinit hndL (Nat.zero_le _)
          (by simp only [List.length_dropLast, List.length_cons]; omega)
        rw [hdec] at hgo
        exact hgo
      rw [heq]
      refine ⟨Or.inr (Or.inr (Or.inl rfl)), hinit, ?_⟩
      intro c hc
      rw [← hdec]
      exact List.mem_append_left _ hc
    · -- neither end used: nothing is removed
      have hclean : ∀ c ∈ h :: rest, c ∉ U := by
        intro c hc hcu
        rcases hE c hc hcu with rfl | rfl
        · exact hh hcu
        · exact hl hcu
      have heq : removeUsedLoop U (h :: rest) = h :: rest :=
        removeUsedGo_clean U _ 0 _ hclean
      rw [heq]
      exact ⟨Or.inl rfl, hclean, fun c hc => hc⟩

theorem StageOK_comp (U V U1 U2 C C1 C2 V1 : List Pos) (bs1 bs2 : List WallBlock)
    (h1 : StageOK U V bs1 U1 C1) (h2 : StageOK U1 V1 bs2 U2 C2)
    (hV1 : ∀ c, c ∈ V1 → c ∈ V ∨ c ∈ C1)
    (hC1 : ∀ c, c ∈ C1 → c ∈ C) (hC2 : ∀ c, c ∈ C2 → c ∈ C) :
    StageOK U V (bs1 ++ bs2) U2 C := by
  obtain ⟨a1, a2, a3, a4⟩ := h1
  obtain ⟨d1, d2, d3, d4⟩ := h2
  refine ⟨fun c hc => d1 c (a1 c hc), ?_, ?_, ?_⟩
  · intro c hc
    rcases d2 c hc with hv | hc2
    · rcases hV1 c hv with hv2 | hc1
      · exact Or.inl hv2
      · exact Or.inr (hC1 c hc1)
    · exact Or.inr (hC2 c hc2)
  · intro b hb q hq
    rcases List.mem_append.mp hb with hb1 | hb2
    · obtain ⟨hnu, hu1⟩ := a3 b hb1 q hq
      exact ⟨hnu, d1 q hu1⟩
    · obtain ⟨hnu1, hu2⟩ := d3 b hb2 q hq
      exact ⟨fun hqU => hnu1 (a1 q hqU), hu2⟩
  · rw [List.pairwise_append]
    refine ⟨a4, d4, ?_⟩
    intro b hb1 b2 hb2 q
    rintro ⟨hq1, hq2⟩
    obtain ⟨_, hu1⟩ := a3 b hb1 q hq1
    obtain ⟨hnu1, _⟩ := d3 b2 hb2 q hq2
    exact hnu1 hu1

theorem StageOK_skip (U V C : List Pos) (hsub : ∀ c ∈ U, c ∈ V) :
    StageOK U V [] U C :=
  ⟨fun c hc => hc, fun c hc => Or.inl (hsub c hc), by simp, List.Pairwise.nil⟩

theorem processParts_cons (p : List Pos) (rest : List (List Pos)) (used : List Pos) :
    processParts (p :: rest) used
      = ((if 0 < (removeUsedLoop used p).length
            then [((removeUsedLoop used p).headD (0, 0),
              (removeUsedLoop used p).getLastD (0, 0))]
            else []) ++ (processParts rest (used ++ removeUsedLoop used p)).1,
          (processParts rest (used ++ removeUsedLoop used p)).2) := rfl

theorem processParts_inv : ∀ (parts : List (List Pos)) (U V : List Pos),
    (∀ c ∈ U, c ∈ V) → GoodParts parts V →
    StageOK U V (processParts parts U).1 (processParts parts U).2 parts.flatten := by
  intro parts
  induction parts with
  | nil =>
    intro U V hsub _
    exact StageOK_skip U V _ hsub
  | cons p rest ih =>
    intro U V hsub hg
    obtain ⟨⟨hsg, hEv, hAv⟩, hgrest⟩ := hg
    have hE : ∀ c ∈ p, c ∈ U → c = p.headD (0, 0) ∨ c = p.getLastD (0, 0) :=
      fun c hc hcu => hEv c hc (hsub c hcu)
    have hA : ¬(p.length = 2 ∧ p.headD (0, 0) ∈ U ∧ p.getLastD (0, 0) ∈ U) := by
      rintro ⟨hlen, hhm, hlm⟩
      exact hAv ⟨hlen, hsub _ hhm, hsub _ hlm⟩
    obtain ⟨hshape, hclean, hsubp⟩ := removeUsedLoop_cases U p (IsSeg_nodup p hsg) hE hA
    have hsegr : IsSeg (removeUsedLoop U p) := by
      rcases hshape with he | he | he | he <;> rw [he]
      · exact hsg
      · exact IsSeg_tail p hsg
      · exact IsSeg_dropLast p hsg
      · exact IsSeg_dropLast _ (IsSeg_tail p hsg)
    have hstage1 : StageOK U V (if 0 < (removeUsedLoop U p).length
        then [((removeUsedLoop U p).headD (0, 0), (removeUsedLoop U p).getLastD (0, 0))]
        else []) (U ++ removeUsedLoop U p) p := by
      refine ⟨fun c hc => List.mem_append_left _ hc, ?_, ?_, ?_⟩
      · intro c hc
        rcases List.mem_append.mp hc with hcu | hcr
        · exact Or.inl (hsub c hcu)
        · exact Or.inr (hsubp c hcr)
      · intro b hb q hq
        by_cases hlen : 0 < (removeUsedLoop U p).length
        · rw [if_pos hlen] at hb
          simp only [List.mem_singleton] at hb
          subst hb
          obtain ⟨qx, qy⟩ := q
          have hqm : (qx, qy) ∈ removeUsedLoop U p :=
            (IsSeg_span_mem _ hsegr hlen qx qy).mp hq
          exact ⟨hclean _ hqm, List.mem_append_right _ hqm⟩
        · rw [if_neg hlen] at hb
          simp at hb
      · by_cases hlen : 0 < (removeUsedLoop U p).length
        · rw [if_pos hlen]
          exact List.pairwise_singleton _ _
        · rw [if_neg hlen]
          exact List.Pairwise.nil
    have hsub2 : ∀ c ∈ U ++ removeUsedLoop U p, c ∈ V ++ p := by
      intro c hc
      rcases List.mem_append.mp hc with hcu | hcr
      · exact List.mem_append_left _ (hsub c hcu)
      · exact List.mem_append_right _ (hsubp c hcr)
    have hrec := ih (U ++ removeUsedLoop U p) (V ++ p) hsub2 hgrest
    have hcomp := StageOK_comp U V (U ++ removeUsedLoop U p)
      (processParts rest (U ++ removeUsedLoop U p)).2 ((p :: rest).flatten) p rest.flatten
      (V ++ p) _ _ hstage1 hrec
      (fun c hc => by
        rcases List.mem_append.mp hc with h1 | h2
        · exact Or.inl h1
        · exact Or.inr h2)
      (fun c hc => by
        rw [List.flatten_cons]
        exact List.mem_append_left _ hc)
      (fun c hc => by
        rw [List.flatten_cons]
        exact List.mem_append_right _ hc)
    rw [processParts_cons]
    exact hcomp

theorem createAllWallBlocks_inv : ∀ (t : PTree) (U V : List Pos),
    (∀ c ∈ U, c ∈ V) → GoodPTree t V →
    StageOK U V (createAllWallBlocks t U).1 (createAllWallBlocks t U).2 (flatCells t)
  | PTree.pnode parts none none, U, V, hsub, hg => by
    have hown := processParts_inv parts U V hsub hg
    simp only [createAllWallBlocks, flatCells, List.append_nil]
    exact hown
  | PTree.pnode parts (some lt) none, U, V, hsub, hg => by
    obtain ⟨hg1, hg2⟩ := hg
    have hown := processParts_inv parts U V hsub hg1
    have hsubl : ∀ c ∈ (processParts parts U).2, c ∈ V ++ parts.flatten := by
      intro c hc
      rcases hown.2.1 c hc with hv | hj
      · exact List.mem_append_left _ hv
      · exact List.mem_append_right _ hj
    have hlt := createAllWallBlocks_inv lt (processParts parts U).2
      (V ++ parts.flatten) hsubl hg2
    have hcomp := StageOK_comp U V (processParts parts U).2
      (createAllWallBlocks lt (processParts parts U).2).2
      (parts.flatten ++ flatCells lt) parts.flatten (flatCells lt)
      (V ++ parts.flatten) _ _ hown hlt
      (fun _ hc => List.mem_append.mp hc)
      (fun c hc => List.mem_append_left _ hc)
      (fun c hc => List.mem_append_right _ hc)
    simp only [createAllWallBlocks, flatCells, List.append_nil]
    exact hcomp
  | PTree.pnode parts none (some rt), U, V, hsub, hg => by
    obtain ⟨hg1, hg2⟩ := hg
    have hown := processParts_inv parts U V hsub hg1
    have hsubr : ∀ c ∈ (processParts parts U).2, c ∈ V ++ parts.flatten := by
      intro c hc
      rcases hown.2.1 c hc with hv | hj
      · exact List.mem_append_left _ hv
      · exact List.mem_append_right _ hj
    have hrt := createAllWallBlocks_inv rt (processParts parts U).2
      (V ++ parts.flatten) hsubr hg2
    have hcomp := StageOK_comp U V (processParts parts U).2
      (createAllWallBlocks rt (processParts parts U).2).2
      (parts.flatten ++ flatCells rt) parts.flatten (flatCells rt)
      (V ++ parts.flatten) _ _ hown hrt
      (fun _ hc => List.mem_append.mp hc)
      (fun c hc => List.mem_append_left _ hc)
      (fun c hc => List.mem_append_right _ hc)
    simp only [createAllWallBlocks, flatCells, List.append_nil]
    exact hcomp
  | PTree.pnode parts (some lt) (some rt), U, V, hsub, hg => by
    obtain ⟨hg1, hg2, hg3⟩ := hg
    have hown := processParts_inv parts U V hsub hg1
    have hsubl : ∀ c ∈ (processParts parts U).2, c ∈ V ++ parts.flatten := by
      intro c hc
      rcases hown.2.1 c hc with hv | hj
      · exact List.mem_append_left _ hv
      · exact List.mem_append_right _ hj
    have hlt := createAllWallBlocks_inv lt (processParts parts U).2
      (V ++ parts.flatten) hsubl hg2
    have hcomp1 := StageOK_comp U V (processParts parts U).2
      (createAllWallBlocks lt (processParts parts U).2).2
      (parts.flatten ++ flatCells lt) parts.flatten (flatCells lt)
      (V ++ parts.flatten) _ _ hown hlt
      (fun _ hc => List.mem_append.mp hc)
      (fun c hc => List.mem_append_left _ hc)
      (fun c hc => List.mem_append_right _ hc)
    have hsubr : ∀ c ∈ (createAllWallBlocks lt (processParts parts U).2).2,
        c ∈ V ++ parts.flatten ++ flatCells lt := by
      intro c hc
      rcases hcomp1.2.1 c hc with hv | hj
      · exact List.mem_append_left _ (List.mem_append_left _ hv)
      · rcases List.mem_append.mp hj with hj1 | hj2
        · exact List.mem_append_left _ (List.mem_append_right _ hj1)
        · exact List.mem_append_right _ hj2
    have hrt := createAllWallBlocks_inv rt
      (createAllWallBlocks lt (processParts parts U).2).2
      (V ++ parts.flatten ++ flatCells lt) hsubr hg3
    have hcomp2 := StageOK_comp U V
      (createAllWallBlocks lt (processParts parts U).2).2
      (createAllWallBlocks rt (createAllWallBlocks lt (processParts parts U).2).2).2
      (parts.flatten ++ flatCells lt ++ flatCells rt)
      (parts.flatten ++ flatCells lt) (flatCells rt)
      (V ++ parts.flatten ++ flatCells lt) _ _ hcomp1 hrt
      (fun c hc => by
        rcases List.mem_append.mp hc with hv1 | hl1
        · rcases List.mem_append.mp hv1 with hv | hj
          · exact Or.inl hv
          · exact Or.inr (List.mem_append_left _ hj)
        · exact Or.inr (List.mem_append_right _ hl1))
      (fun c hc => List.mem_append_left _ hc)
      (fun c hc => List.mem_append_right _ hc)
    simp only [createAllWallBlocks, flatCells]
    exact hcomp2

/-- C4: on every tree a generation run can produce — captured by
`GoodPTree` over the edge-seeded used list — the wall blocks emitted by
`createAllWallBlocks` are pairwise cell-disjoint: no grid cell lies
within the span of two distinct emitted blocks.  Parts are straight
segments whose only already-used cells sit at their own two ends and
are never an adjacent pair, so the remove loop deletes exactly the used
end cells (the remove-while-iterating skip needs two adjacent used
cells, which no run produces); every emitted span therefore consists of
cells fresh at emission time, all appended to `usedPos` before any
later part is processed. -/
theorem createAllWallBlocks_disjoint (t : PTree) (hg : GoodPTree t generateEdges) :
    List.Pairwise (fun b b2 => ∀ q : Pos, ¬(inSpan b q ∧ inSpan b2 q))
      (createAllWallBlocks t generateEdges).1 :=
  (createAllWallBlocks_inv t generateEdges generateEdges (fun _ hc => hc) hg).2.2.2

/-- Witness for C4 at the concrete tree `TW` with `usedPos` pre-seeded
by `generateEdges`: the child part's last cell `(5,3)` lies on the
parent's already-emitted part and is removed before the child's block
is emitted. -/
theorem createAllWallBlocks_disjoint_witness :
    List.Pairwise (fun b b2 => ∀ q : Pos, ¬(inSpan b q ∧ inSpan b2 q))
      (createAllWallBlocks TW generateEdges).1 :=
  createAllWallBlocks_disjoint TW (by
  refine ⟨⟨⟨Or.inr ⟨5, 1, 3, by rfl⟩, ?_, ?_⟩, trivial⟩,
    ⟨⟨Or.inl ⟨3, 3, 3, by rfl⟩, ?_, ?_⟩, trivial⟩⟩
  · intro c hc hmem
    exfalso
    simp only [List.mem_cons, List.not_mem_nil, or_false] at hc
    rcases hc with rfl | rfl | rfl
    · exact not_mem_generateEdges (5, 1) (by decide) (by decide) (by decide) (by decide) hmem
    · exact not_mem_generateEdges (5, 2) (by decide) (by decide) (by decide) (by decide) hmem
    · exact not_mem_generateEdges (5, 3) (by decide) (by decide) (by decide) (by decide) hmem
  · rintro ⟨hlen, _, _⟩
    simp at hlen
  · intro c hc hmem
    simp only [List.mem_cons, List.not_mem_nil, or_false] at hc
    rcases hc with rfl | rfl | rfl
    · exact Or.inl rfl
    · exfalso
      rcases List.mem_append.mp hmem with hm | hm
      · exact not_mem_generateEdges (4, 3) (by decide) (by decide) (by decide) (by decide) hm
      · exact absurd hm (by decide)
    · exact Or.inr rfl
  · rintro ⟨hlen, _, _⟩
    simp at hlen)
